import Mathlib

/-!
Verification of the spectral-test engine `knuth` in `src/misc/spectral.py`
(Knuth's spectral test, TAOCP Vol. 2, Section 3.3.4, Algorithm S).

Modelling conventions.
* Python arbitrary-precision integers are `ℤ`; Python lists of integers are
  `List ℤ`; the matrices `U`, `V` are `List (List ℤ)` (row major, as in the
  source).
* Python runtime errors are made explicit: `x // y` and `x % y` raise
  `ZeroDivisionError` when `y = 0` (`pyFloorDiv`, `pyMod`); list indexing
  `xs[i]` follows Python semantics (negative indices count from the end,
  out-of-range raises `IndexError`); the statement `Y -= scalarmult(...)`
  at line 122 of the source would raise a `TypeError`, because `Y` is a
  Python list and lists do not support `-=`; it is modelled by `Err.typeError`.
  `Y += U[k]` at line 116 is Python list concatenation (extend), modelled
  by `List.append`.
* The source computes `round(dot(V[i],V[j]) / dot(V[j],V[j]))` (line 96) and
  `floor(sqrt(dot(V[j], scalarmult(s/m**2, V[j]))))` (line 111) with Python
  floats.  The embedding uses the exact rational values of those expressions:
  `pyRoundDiv` is round-half-to-even of the exact quotient (what `round`
  computes whenever the float division is exact) and `zbound` is
  `Int.sqrt ((s * dot Vj Vj) // m^2)`, the exact floor of the square root of
  the exact quotient.
* Every unbounded `while` loop of the source is given explicit fuel; running
  out of fuel is the distinguished outcome `Err.fuel`.  The loop guard is
  tested before the fuel, so a loop whose guard is initially false never
  consumes fuel.
* The source finally reports `sqrt(s)` as a float (lines 60, 130); the
  embedding returns the exact integer `s` (the squared figure `v_T²`), since
  the square root is only final reporting.
-/

namespace SpectralTest

/-- Runtime outcomes of the Python source that the embedding tracks:
division or modulus by zero, the `TypeError` that line 122 would raise,
an out-of-range list index, and exhaustion of loop fuel. -/
inductive Err where
  | zeroDivision
  | typeError
  | indexError
  | fuel
deriving DecidableEq

/-- Inner product of two integer lists, as the source's `dot` (line 5).
Python's `map` over two lists truncates at the shorter list, as `zipWith`. -/
def dot (list1 list2 : List ℤ) : ℤ :=
  (List.zipWith (· * ·) list1 list2).sum

/-- Element-wise sum, as the source's `add` (line 9). -/
def add (list1 list2 : List ℤ) : List ℤ :=
  List.zipWith (· + ·) list1 list2

/-- Scalar multiple of a list, as the source's `scalarmult` (line 13). -/
def scalarmult (scalar : ℤ) (list1 : List ℤ) : List ℤ :=
  list1.map (fun elt => scalar * elt)

/-- Element-wise difference, as the source's `sub` (line 17), literally
`add list1 (scalarmult (-1) list2)`. -/
def sub (list1 list2 : List ℤ) : List ℤ :=
  add list1 (scalarmult (-1) list2)

/-- Python floor division `x // y`: floors the quotient, raises
`ZeroDivisionError` when `y = 0`. -/
def pyFloorDiv (x y : ℤ) : Except Err ℤ :=
  if y = 0 then .error .zeroDivision else .ok (Int.fdiv x y)

/-- Python modulus `x % y`: the remainder of floor division (sign of the
divisor), raising `ZeroDivisionError` when `y = 0`. -/
def pyMod (x y : ℤ) : Except Err ℤ :=
  if y = 0 then .error .zeroDivision else .ok (Int.fmod x y)

/-- Python `round(x / y)` for integers `x`, `y` with `y > 0`, under the
exact-quotient reading of the source's float division at line 96:
round half to even of the rational `x / y`. -/
def pyRoundDiv (x y : ℤ) : ℤ :=
  let n := Int.fdiv x y
  let r2 := 2 * (x - n * y)
  if r2 > y then n + 1
  else if r2 < y then n
  else if n % 2 = 0 then n else n + 1

/-- Python's effective list index: a negative index counts from the end of
the list. -/
def pyIndex (len : ℕ) (i : ℤ) : ℤ :=
  if 0 ≤ i then i else (len : ℤ) + i

/-- Python list read `xs[i]` with an integer index: negative indices count
from the end, out-of-range raises `IndexError`. -/
def pyGetI {α : Type} (xs : List α) (i : ℤ) : Except Err α :=
  if 0 ≤ pyIndex xs.length i then
    match xs.get? (pyIndex xs.length i).toNat with
    | some x => .ok x
    | none => .error .indexError
  else .error .indexError

/-- Python list write `xs[i] = a` with an integer index, with the same
index semantics as `pyGetI`. -/
def pySetI {α : Type} (xs : List α) (i : ℤ) (a : α) : Except Err (List α) :=
  if 0 ≤ pyIndex xs.length i then
    if (pyIndex xs.length i).toNat < xs.length
    then .ok (xs.set (pyIndex xs.length i).toNat a)
    else .error .indexError
  else .error .indexError

/-- State of the Euclidean phase S1-S3 of `knuth` (lines 30-58):
the continued-fraction pairs `(h, h_prime)`, `(p, p_prime)` and the running
minimal squared norm `s`. -/
structure ESt where
  h : ℤ
  h_prime : ℤ
  p : ℤ
  p_prime : ℤ
  s : ℤ
deriving DecidableEq

/-- The Euclidean loop of step S2 (lines 44-52).  The carried `u`, `v` are
the values already computed for the next guard test; each accepted step
updates `s`, rotates the pairs and recomputes `q`, `u`, `v`.  The division
`h_prime // h` raises `ZeroDivisionError` when the rotation drives `h`
to zero (which really happens in the source, e.g. for `a = 2, m = 4`). -/
def euclidLoop : ℕ → ℤ → ℤ → ℤ → ℤ → ℤ → ℤ → ℤ → Except Err (ESt × ℤ × ℤ)
  | 0, h, h_prime, p, p_prime, s, u, v =>
    if u ^ 2 + v ^ 2 < s then .error .fuel
    else .ok (⟨h, h_prime, p, p_prime, s⟩, u, v)
  | fuel + 1, h, h_prime, p, p_prime, s, u, v =>
    if u ^ 2 + v ^ 2 < s then
      let s1 := u ^ 2 + v ^ 2
      let h_prime1 := h
      let h1 := u
      let p_prime1 := p
      let p1 := v
      match pyFloorDiv h_prime1 h1 with
      | .error e => .error e
      | .ok q =>
        euclidLoop fuel h1 h_prime1 p1 p_prime1 s1 (h_prime1 - q * h1) (p_prime1 - q * p1)
    else .ok (⟨h, h_prime, p, p_prime, s⟩, u, v)

/-- Steps S1-S3a of `knuth` (lines 30-58): initialisation with
`h = a, h_prime = m, p = 1, p_prime = 0, s = 1 + a²`, the first
`q, u, v` (lines 40-42), the Euclidean loop, and the final unrotated
candidate `(u - h, v - p)` that may still lower `s`. -/
def euclidPhase (fuel : ℕ) (a m : ℤ) : Except Err ESt :=
  match pyFloorDiv m a with
  | .error e => .error e
  | .ok q =>
    match euclidLoop fuel a m 1 0 (1 + a ^ 2) (m - q * a) (0 - q * 1) with
    | .error e => .error e
    | .ok (e, u, v) =>
      .ok ⟨e.h, e.h_prime, e.p, e.p_prime,
           if (u - e.h) ^ 2 + (v - e.p) ^ 2 < e.s
           then (u - e.h) ^ 2 + (v - e.p) ^ 2 else e.s⟩

/-- Step S3b (lines 66-67): the initial 2x2 primal and dual bases, with the
sign of the dual chosen by the test `p_prime <= 0`. -/
def initUV (e : ESt) : List (List ℤ) × List (List ℤ) :=
  ([[-e.h, e.p], [-e.h_prime, e.p_prime]],
   if e.p_prime ≤ 0 then [[e.p_prime, e.h_prime], [-e.p, -e.h]]
   else [[-e.p_prime, -e.h_prime], [e.p, e.h]])

/-- State shared by the matrix phases of `knuth`: the current dimension `t`,
the running power `r = a^(t-1) mod m`, the norm bound `s`, and the primal
and dual bases `U`, `V` (each `t` rows of length `t`). -/
structure MatSt where
  t : ℕ
  r : ℤ
  s : ℤ
  U : List (List ℤ)
  V : List (List ℤ)
deriving DecidableEq

/-- The for-loop of the extension step (lines 83-86), iterated over the list
of prior row indices `i`: compute `q = V[i][0] * r // m`, set the new last
coordinate of `V[i]`, and add `q` times `U[i]` to the freshly appended last
primal row `U[t-1]`. -/
def extendLoop (m r : ℤ) (t : ℕ) :
    List ℕ → List (List ℤ) × List (List ℤ) → Except Err (List (List ℤ) × List (List ℤ))
  | [], UV => .ok UV
  | i :: is, (U, V) =>
    match pyFloorDiv ((V.getD i []).getD 0 0 * r) m with
    | .error e => .error e
    | .ok q =>
      extendLoop m r t is
        (U.set (t - 1) (add (U.getD (t - 1) []) (scalarmult q (U.getD i []))),
         V.set i ((V.getD i []).set (t - 1) ((V.getD i []).getD 0 0 * r - q * m)))

/-- Step S4 (lines 70-88): advance `t` and `r`, append a zero column to `U`
and `V`, append the new primal row `[-r, 0, ..., 0, 1]` and the new dual row
`[0, ..., 0, m]`, run the re-centering loop over the prior rows, and take the
new last primal row as a candidate for `s`. -/
def extendPhase (a m : ℤ) (st : MatSt) : Except Err MatSt :=
  match pyMod (a * st.r) m with
  | .error e => .error e
  | .ok r =>
    match extendLoop m r (st.t + 1) (List.range st.t)
        (st.U.map (fun row => row ++ [0]) ++
           [[-r] ++ List.replicate (st.t - 1) (0 : ℤ) ++ [1]],
         st.V.map (fun row => row ++ [0]) ++
           [List.replicate st.t (0 : ℤ) ++ [m]]) with
    | .error e => .error e
    | .ok (U, V) =>
      .ok ⟨st.t + 1, r, min st.s (dot (U.getD st.t []) (U.getD st.t [])), U, V⟩

/-- One pass of step S5 (lines 94-100) over the row indices `i`, with the
current row `j` fixed: when `|2 (V[i]·V[j])| > V[j]·V[j]`, subtract
`q = round((V[i]·V[j])/(V[j]·V[j]))` times `V[j]` from `V[i]`, add `q` times
`U[i]` to `U[j]`, lower `s` with the new `‖U[j]‖²` and record `k = j`. -/
def reducePass (j : ℕ) :
    List ℕ → List (List ℤ) × List (List ℤ) × ℤ × ℕ → List (List ℤ) × List (List ℤ) × ℤ × ℕ
  | [], st => st
  | i :: is, (U, V, s, k) =>
    let Vi := V.getD i []
    let Vj := V.getD j []
    if i ≠ j ∧ |2 * dot Vi Vj| > dot Vj Vj then
      let q := pyRoundDiv (dot Vi Vj) (dot Vj Vj)
      let V1 := V.set i (sub Vi (scalarmult q Vj))
      let Uj1 := add (U.getD j []) (scalarmult q (U.getD i []))
      let U1 := U.set j Uj1
      reducePass j is (U1, V1, min s (dot Uj1 Uj1), j)
    else
      reducePass j is (U, V, s, k)

/-- Steps S5-S6 (lines 93-103): repeat passes, advancing `j` cyclically,
until `j` comes back to the last changed row `k`. -/
def reduceLoop (t : ℕ) :
    ℕ → ℕ → ℕ → List (List ℤ) × List (List ℤ) × ℤ → Except Err (List (List ℤ) × List (List ℤ) × ℤ)
  | 0, j, k, st => if j ≠ k then .error .fuel else .ok st
  | fuel + 1, j, k, (U, V, s) =>
    if j ≠ k then
      let (U1, V1, s1, k1) := reducePass j (List.range t) (U, V, s, k)
      let j1 := if j = t - 1 then 0 else j + 1
      reduceLoop t fuel j1 k1 (U1, V1, s1)
    else .ok (U, V, s)

/-- Step S5-S6 wrapped as a phase: `k = t - 1`, `j = 0` (lines 89-90), then
the transform loop. -/
def reducePhase (fuel : ℕ) (st : MatSt) : Except Err MatSt :=
  match reduceLoop st.t fuel 0 (st.t - 1) (st.U, st.V, st.s) with
  | .error e => .error e
  | .ok (U, V, s) => .ok ⟨st.t, st.r, s, U, V⟩

/-- The search bound of line 111,
`floor(sqrt(dot(V[j], scalarmult(s/m**2, V[j]))))`, read with the exact
value of the quotient: the integer square root of `⌊s·(V[j]·V[j])/m²⌋`.
Like the source's `s/(m**2)`, it raises `ZeroDivisionError` when `m = 0`. -/
def zbound (m s : ℤ) (Vj : List ℤ) : Except Err ℤ :=
  match pyFloorDiv (s * dot Vj Vj) (m ^ 2) with
  | .error e => .error e
  | .ok w => .ok (Int.sqrt w)

/-- Line 110-111: the list `Z` of per-coordinate search bounds, one per row
of `V`. -/
def zbounds (m s : ℤ) : List (List ℤ) → Except Err (List ℤ)
  | [] => .ok []
  | Vj :: rest =>
    match zbound m s Vj with
    | .error e => .error e
    | .ok z =>
      match zbounds m s rest with
      | .error e => .error e
      | .ok zs => .ok (z :: zs)

/-- Steps S8-S10 (lines 114-128), exactly as written in the source.  The
guard first reads `X[k]` and `Z[k]` (Python indexing), then tests
`X[k] != Z[k] and k >= 0`; the body increments `X[k]`, extends the Python
list `Y` by `U[k]` (list concatenation!), increments `k`, runs the inner
`while k <= t-1` loop - whose body would raise a `TypeError` at
`Y -= scalarmult(2*Z[k], U[k])`, modelled as `Err.typeError` - then lowers
`s` with `dot Y Y` and decrements `k`. -/
def searchLoop (t : ℕ) (U : List (List ℤ)) (Z : List ℤ) :
    ℕ → List ℤ → List ℤ → ℤ → ℤ → Except Err (List ℤ × List ℤ × ℤ)
  | 0, X, Y, k, s =>
    match pyGetI X k, pyGetI Z k with
    | .error e, _ => .error e
    | .ok _, .error e => .error e
    | .ok xk, .ok zk =>
      if xk ≠ zk ∧ 0 ≤ k then .error .fuel else .ok (X, Y, s)
  | fuel + 1, X, Y, k, s =>
    match pyGetI X k, pyGetI Z k with
    | .error e, _ => .error e
    | .ok _, .error e => .error e
    | .ok xk, .ok zk =>
      if xk ≠ zk ∧ 0 ≤ k then
        match pySetI X k (xk + 1), pyGetI U k with
        | .error e, _ => .error e
        | .ok _, .error e => .error e
        | .ok X1, .ok Uk =>
          if k + 1 ≤ (t : ℤ) - 1 then .error .typeError
          else
            searchLoop t U Z fuel X1 (Y ++ Uk) (k + 1 - 1)
              (min s (dot (Y ++ Uk) (Y ++ Uk)))
      else .ok (X, Y, s)

/-- Step S7 plus the search loop (lines 105-128): `X = Y = [0]*t`,
`k = t-1`, compute `Z`, then enumerate.  Only `s` survives into the next
dimension; `U`, `V`, `r`, `t` are untouched by the search. -/
def searchPhase (fuel : ℕ) (m : ℤ) (st : MatSt) : Except Err MatSt :=
  match zbounds m st.s st.V with
  | .error e => .error e
  | .ok Z =>
    match searchLoop st.t st.U Z fuel (List.replicate st.t (0 : ℤ))
        (List.replicate st.t (0 : ℤ)) ((st.t : ℤ) - 1) st.s with
    | .error e => .error e
    | .ok (_, _, s) => .ok ⟨st.t, st.r, s, st.U, st.V⟩

/-- One iteration of the main `while t < T` loop (lines 69-128): extension,
reduction, search. -/
def dimStep (fuel : ℕ) (a m : ℤ) (st : MatSt) : Except Err MatSt :=
  match extendPhase a m st with
  | .error e => .error e
  | .ok st1 =>
    match reducePhase fuel st1 with
    | .error e => .error e
    | .ok st2 => searchPhase fuel m st2

/-- The main loop `while t < T` (line 69): run `dimStep` until the current
dimension reaches `T`.  The guard is tested before the fuel. -/
def knuthDims (a m T : ℤ) : ℕ → MatSt → Except Err MatSt
  | 0, st => if (st.t : ℤ) < T then .error .fuel else .ok st
  | fuel + 1, st =>
    if (st.t : ℤ) < T then
      match dimStep fuel a m st with
      | .error e => .error e
      | .ok st1 => knuthDims a m T fuel st1
    else .ok st

/-- The state entering the main loop for `T > 2`: dimension 2, `r = a`,
`s` from the Euclidean phase, and the bases of `initUV`. -/
def matInit (fuel : ℕ) (a m : ℤ) : Except Err MatSt :=
  match euclidPhase fuel a m with
  | .error e => .error e
  | .ok e => .ok ⟨2, a, e.s, (initUV e).1, (initUV e).2⟩

/-- Iterating `dimStep` a given number of times from a state; the states so
reached are exactly the per-dimension snapshots of the main loop. -/
def iterDim (fuel : ℕ) (a m : ℤ) : ℕ → MatSt → Except Err MatSt
  | 0, st => .ok st
  | n + 1, st =>
    match dimStep fuel a m st with
    | .error e => .error e
    | .ok st1 => iterDim fuel a m n st1

/-- The engine `knuth(T, a, m)` of lines 21-130, with explicit fuel for the
unbounded loops.  It returns the exact squared value `s = v_T²`; the source
reports `sqrt(s)` (a float) from the same `s`.  Note the source performs no
parameter validation whatsoever: any `T ≤ 2` falls through to the
dimension-2 return, and degenerate `a` or `m` surface as
`ZeroDivisionError` inside the computation. -/
def knuth (fuel : ℕ) (T a m : ℤ) : Except Err ℤ :=
  match euclidPhase fuel a m with
  | .error e => .error e
  | .ok e =>
    if T = 2 then .ok e.s
    else
      match knuthDims a m T fuel ⟨2, a, e.s, (initUV e).1, (initUV e).2⟩ with
      | .error er => .error er
      | .ok st => .ok st.s

/-- Rows of a matrix: the list has `t` rows and every row accessible by
index has length `t`.  Used as the shape part of the loop invariants. -/
def RowsLen (L : List (List ℤ)) (t : ℕ) : Prop :=
  L.length = t ∧ ∀ i < t, (L.getD i []).length = t

/-- Shape invariant of the matrix-phase state: square `t × t` bases with
`t ≥ 2`. -/
def Wf (st : MatSt) : Prop :=
  2 ≤ st.t ∧ RowsLen st.U st.t ∧ RowsLen st.V st.t

/-- The duality relation `U · Vᵗ = m · I` of the spec, stated row by row:
the inner product of primal row `i` with dual row `j` is `m` on the
diagonal and `0` off it. -/
def DualUV (m : ℤ) (U V : List (List ℤ)) : Prop :=
  ∀ i < U.length, ∀ j < V.length,
    dot (U.getD i []) (V.getD j []) = if i = j then m else 0

/-- The multiplier `q = V[i][0] * r // m` of the extension loop (line 84),
as a function of the dual row it is computed from. -/
def qOf (m r : ℤ) (row : List ℤ) : ℤ :=
  Int.fdiv (row.getD 0 0 * r) m

/-- Invariant of the Euclidean loop: the remainders stay positive and
decreasing, the cofactors `p`, `p_prime` have alternating signs, and the
determinant `h * p_prime - h_prime * p` is `∓m` with the sign tied to the
sign of `p_prime`.  This is what makes the sign test `p_prime <= 0` at
line 67 pick the dual basis with `U·Vᵗ = m·I`. -/
def EuclidCore (m h h_prime p p_prime : ℤ) : Prop :=
  0 < h ∧ h < h_prime ∧
  ((0 < p ∧ p_prime ≤ 0 ∧ h * p_prime - h_prime * p = -m) ∨
   (p < 0 ∧ 0 < p_prime ∧ h * p_prime - h_prime * p = m))

end SpectralTest

namespace SpectralTest

/-! Basic algebra of `dot`, `add`, `scalarmult`, `sub` and of list
indexing, used throughout the invariance proofs. -/

theorem length_add (xs ys : List ℤ) : (add xs ys).length = min xs.length ys.length := by
  simp [add]

theorem length_scalarmult (c : ℤ) (xs : List ℤ) : (scalarmult c xs).length = xs.length := by
  simp [scalarmult]

theorem length_sub (xs ys : List ℤ) : (sub xs ys).length = min xs.length ys.length := by
  simp [sub, add, scalarmult]

theorem dot_nil_left (ys : List ℤ) : dot [] ys = 0 := by
  simp [dot]

theorem dot_nil_right (xs : List ℤ) : dot xs [] = 0 := by
  cases xs <;> simp [dot]

theorem dot_cons (x y : ℤ) (xs ys : List ℤ) :
    dot (x :: xs) (y :: ys) = x * y + dot xs ys := by
  simp [dot]

theorem dot_comm (xs ys : List ℤ) : dot xs ys = dot ys xs := by
  induction xs generalizing ys with
  | nil => simp [dot_nil_left, dot_nil_right]
  | cons x xs ih =>
    cases ys with
    | nil => simp [dot_nil_left, dot_nil_right]
    | cons y ys => simp [dot_cons, ih, mul_comm]

theorem dot_add_left (xs ys zs : List ℤ) (h : xs.length = ys.length) :
    dot (add xs ys) zs = dot xs zs + dot ys zs := by
  induction xs generalizing ys zs with
  | nil =>
    have : ys = [] := List.length_eq_zero.mp h.symm
    subst this; simp [add, dot_nil_left]
  | cons x xs ih =>
    cases ys with
    | nil => simp at h
    | cons y ys =>
      cases zs with
      | nil => simp [dot_nil_right]
      | cons z zs =>
        have h' : xs.length = ys.length := by simpa using h
        simp only [add, List.zipWith_cons_cons, dot_cons]
        have := ih ys zs h'
        simp only [add] at this
        rw [this]; ring

theorem dot_smul_left (c : ℤ) (xs ys : List ℤ) :
    dot (scalarmult c xs) ys = c * dot xs ys := by
  induction xs generalizing ys with
  | nil => simp [scalarmult, dot_nil_left]
  | cons x xs ih =>
    cases ys with
    | nil => simp [dot_nil_right]
    | cons y ys =>
      simp only [scalarmult, List.map_cons, dot_cons]
      have := ih ys
      simp only [scalarmult] at this
      rw [this]; ring

theorem dot_sub_left (xs ys zs : List ℤ) (h : xs.length = ys.length) :
    dot (sub xs ys) zs = dot xs zs - dot ys zs := by
  have hlen : xs.length = (scalarmult (-1) ys).length := by
    simpa [length_scalarmult] using h
  rw [sub, dot_add_left xs (scalarmult (-1) ys) zs hlen, dot_smul_left]; ring

theorem dot_add_right (xs ys zs : List ℤ) (h : ys.length = zs.length) :
    dot xs (add ys zs) = dot xs ys + dot xs zs := by
  rw [dot_comm, dot_add_left ys zs xs h, dot_comm ys xs, dot_comm zs xs]

theorem dot_smul_right (c : ℤ) (xs ys : List ℤ) :
    dot xs (scalarmult c ys) = c * dot xs ys := by
  rw [dot_comm, dot_smul_left, dot_comm]

theorem dot_sub_right (xs ys zs : List ℤ) (h : ys.length = zs.length) :
    dot xs (sub ys zs) = dot xs ys - dot xs zs := by
  rw [dot_comm, dot_sub_left ys zs xs h, dot_comm ys xs, dot_comm zs xs]

theorem dot_append_single (xs ys : List ℤ) (c d : ℤ) (h : xs.length = ys.length) :
    dot (xs ++ [c]) (ys ++ [d]) = dot xs ys + c * d := by
  induction xs generalizing ys with
  | nil =>
    have : ys = [] := List.length_eq_zero.mp h.symm
    subst this; simp [dot_cons, dot_nil_left]
  | cons x xs ih =>
    cases ys with
    | nil => simp at h
    | cons y ys =>
      have h' : xs.length = ys.length := by simpa using h
      simp only [List.cons_append, dot_cons, ih ys h']
      ring

theorem dot_replicate_zero_left (n : ℕ) (ys : List ℤ) :
    dot (List.replicate n 0) ys = 0 := by
  induction n generalizing ys with
  | zero => simp [dot_nil_left]
  | succ n ih =>
    cases ys with
    | nil => simp [dot_nil_right]
    | cons y ys => simp [List.replicate_succ, dot_cons, ih]

theorem dot_replicate_zero_right (n : ℕ) (xs : List ℤ) :
    dot xs (List.replicate n 0) = 0 := by
  rw [dot_comm, dot_replicate_zero_left]

theorem dot_self_nonneg (xs : List ℤ) : 0 ≤ dot xs xs := by
  induction xs with
  | nil => simp [dot_nil_left]
  | cons x xs ih =>
    rw [dot_cons]
    have := mul_self_nonneg x
    omega

theorem getD_set_eq {α : Type} (l : List α) (i : ℕ) (a d : α) (h : i < l.length) :
    (l.set i a).getD i d = a := by
  induction l generalizing i with
  | nil => simp at h
  | cons x xs ih =>
    cases i with
    | zero => simp
    | succ i => simpa using ih i (by simpa using h)

theorem getD_set_ne {α : Type} (l : List α) (i j : ℕ) (a d : α) (h : i ≠ j) :
    (l.set i a).getD j d = l.getD j d := by
  induction l generalizing i j with
  | nil => simp
  | cons x xs ih =>
    cases i with
    | zero => cases j with
      | zero => exact absurd rfl h
      | succ j => simp
    | succ i => cases j with
      | zero => simp
      | succ j => simpa using ih i j (fun hc => h (by simp [hc]))

theorem getD_append_left {α : Type} (l1 l2 : List α) (i : ℕ) (d : α) (h : i < l1.length) :
    (l1 ++ l2).getD i d = l1.getD i d := by
  induction l1 generalizing i with
  | nil => simp at h
  | cons x xs ih =>
    cases i with
    | zero => simp
    | succ i => simpa using ih i (by simpa using h)

theorem getD_append_length {α : Type} (l1 l2 : List α) (x d : α) :
    (l1 ++ x :: l2).getD l1.length d = x := by
  induction l1 with
  | nil => simp
  | cons y ys ih => simpa using ih

theorem getD_map_pad (L : List (List ℤ)) (i : ℕ) (h : i < L.length) :
    (L.map (fun row => row ++ [(0 : ℤ)])).getD i [] = L.getD i [] ++ [0] := by
  induction L generalizing i with
  | nil => simp at h
  | cons x xs ih =>
    cases i with
    | zero => simp
    | succ i => simpa using ih i (by simpa using h)

theorem set_append_length {α : Type} (l1 : List α) (a b : α) :
    (l1 ++ [a]).set l1.length b = l1 ++ [b] := by
  induction l1 with
  | nil => simp
  | cons x xs ih => simpa using ih

theorem getD_length_le {α : Type} (l : List α) (i : ℕ) (d : α) (h : l.length ≤ i) :
    l.getD i d = d := by
  induction l generalizing i with
  | nil => simp
  | cons x xs ih =>
    cases i with
    | zero => simp at h
    | succ i => simpa using ih i (by simpa using h)

/-! Monotonicity of the norm bound `s`: no phase of the engine ever
increases it. -/

theorem euclidLoop_s_le :
    ∀ (fuel : ℕ) (h h_prime p p_prime s u v : ℤ) (e : ESt) (u1 v1 : ℤ),
      euclidLoop fuel h h_prime p p_prime s u v = .ok (e, u1, v1) → e.s ≤ s := by
  intro fuel
  induction fuel with
  | zero =>
    intro h h_prime p p_prime s u v e u1 v1 heq
    simp only [euclidLoop] at heq
    split at heq
    · exact absurd heq (by simp)
    · simp only [Except.ok.injEq, Prod.mk.injEq] at heq
      obtain ⟨he, -, -⟩ := heq
      subst he
      exact le_refl s
  | succ fuel ih =>
    intro h h_prime p p_prime s u v e u1 v1 heq
    simp only [euclidLoop] at heq
    split at heq
    case isTrue hguard =>
      split at heq
      · exact absurd heq (by simp)
      · exact le_of_lt (lt_of_le_of_lt (ih _ _ _ _ _ _ _ _ _ _ heq) hguard)
    case isFalse hguard =>
      simp only [Except.ok.injEq, Prod.mk.injEq] at heq
      obtain ⟨he, -, -⟩ := heq
      subst he
      exact le_refl s

theorem euclidPhase_s_le (fuel : ℕ) (a m : ℤ) (e : ESt)
    (heq : euclidPhase fuel a m = .ok e) : e.s ≤ 1 + a ^ 2 := by
  simp only [euclidPhase] at heq
  split at heq
  · exact absurd heq (by simp)
  case h_2 q hq =>
    split at heq
    · exact absurd heq (by simp)
    case h_2 e1 u v hloop =>
      have hle := euclidLoop_s_le _ _ _ _ _ _ _ _ _ _ _ hloop
      simp only [Except.ok.injEq] at heq
      subst heq
      simp only []
      split
      case isTrue hlt => exact le_of_lt (lt_of_lt_of_le hlt hle)
      case isFalse hlt => exact hle

theorem reducePass_s_le (j : ℕ) :
    ∀ (is : List ℕ) (U V : List (List ℤ)) (s : ℤ) (k : ℕ),
      (reducePass j is (U, V, s, k)).2.2.1 ≤ s := by
  intro is
  induction is with
  | nil => intro U V s k; simp [reducePass]
  | cons i is ih =>
    intro U V s k
    simp only [reducePass]
    split
    · exact le_trans (ih _ _ _ _) (min_le_left _ _)
    · exact ih _ _ _ _

theorem reduceLoop_s_le (t : ℕ) :
    ∀ (fuel j k : ℕ) (U V : List (List ℤ)) (s : ℤ) (U1 V1 : List (List ℤ)) (s1 : ℤ),
      reduceLoop t fuel j k (U, V, s) = .ok (U1, V1, s1) → s1 ≤ s := by
  intro fuel
  induction fuel with
  | zero =>
    intro j k U V s U1 V1 s1 heq
    simp only [reduceLoop] at heq
    split at heq
    · exact absurd heq (by simp)
    · simp only [Except.ok.injEq, Prod.mk.injEq] at heq
      omega
  | succ fuel ih =>
    intro j k U V s U1 V1 s1 heq
    simp only [reduceLoop] at heq
    split at heq
    · have h1 := reducePass_s_le j (List.range t) U V s k
      have h2 := ih _ _ _ _ _ _ _ _ heq
      exact le_trans h2 h1
    · simp only [Except.ok.injEq, Prod.mk.injEq] at heq
      omega

theorem searchLoop_s_le (t : ℕ) (U : List (List ℤ)) (Z : List ℤ) :
    ∀ (fuel : ℕ) (X Y : List ℤ) (k : ℤ) (s : ℤ) (X1 Y1 : List ℤ) (s1 : ℤ),
      searchLoop t U Z fuel X Y k s = .ok (X1, Y1, s1) → s1 ≤ s := by
  intro fuel
  induction fuel with
  | zero =>
    intro X Y k s X1 Y1 s1 heq
    simp only [searchLoop] at heq
    split at heq
    · exact absurd heq (by simp)
    · exact absurd heq (by simp)
    · split at heq
      · exact absurd heq (by simp)
      · simp only [Except.ok.injEq, Prod.mk.injEq] at heq
        omega
  | succ fuel ih =>
    intro X Y k s X1 Y1 s1 heq
    simp only [searchLoop] at heq
    split at heq
    · exact absurd heq (by simp)
    · exact absurd heq (by simp)
    · split at heq
      · split at heq
        · exact absurd heq (by simp)
        · exact absurd heq (by simp)
        · split at heq
          · exact absurd heq (by simp)
          · exact le_trans (ih _ _ _ _ _ _ _ heq) (min_le_left _ _)
      · simp only [Except.ok.injEq, Prod.mk.injEq] at heq
        omega

theorem extendPhase_s_le (a m : ℤ) (st st1 : MatSt)
    (heq : extendPhase a m st = .ok st1) : st1.s ≤ st.s := by
  simp only [extendPhase] at heq
  split at heq
  · exact absurd heq (by simp)
  · split at heq
    · exact absurd heq (by simp)
    · simp only [Except.ok.injEq] at heq
      subst heq
      exact min_le_left _ _

theorem reducePhase_s_le (fuel : ℕ) (st st1 : MatSt)
    (heq : reducePhase fuel st = .ok st1) : st1.s ≤ st.s := by
  simp only [reducePhase] at heq
  split at heq
  · exact absurd heq (by simp)
  case h_2 U V s hloop =>
    simp only [Except.ok.injEq] at heq
    subst heq
    exact reduceLoop_s_le _ _ _ _ _ _ _ _ _ _ hloop

theorem searchPhase_s_le (fuel : ℕ) (m : ℤ) (st st1 : MatSt)
    (heq : searchPhase fuel m st = .ok st1) : st1.s ≤ st.s := by
  simp only [searchPhase] at heq
  split at heq
  · exact absurd heq (by simp)
  · split at heq
    · exact absurd heq (by simp)
    case h_2 X1 Y1 s1 hloop =>
      simp only [Except.ok.injEq] at heq
      subst heq
      exact searchLoop_s_le _ _ _ _ _ _ _ _ _ _ _ hloop

theorem dimStep_s_le (fuel : ℕ) (a m : ℤ) (st st1 : MatSt)
    (heq : dimStep fuel a m st = .ok st1) : st1.s ≤ st.s := by
  simp only [dimStep] at heq
  split at heq
  · exact absurd heq (by simp)
  case h_2 stA hA =>
    split at heq
    · exact absurd heq (by simp)
    case h_2 stB hB =>
      exact le_trans (searchPhase_s_le _ _ _ _ heq)
        (le_trans (reducePhase_s_le _ _ _ hB) (extendPhase_s_le _ _ _ _ hA))

theorem knuthDims_s_le (a m T : ℤ) :
    ∀ (fuel : ℕ) (st st1 : MatSt), knuthDims a m T fuel st = .ok st1 → st1.s ≤ st.s := by
  intro fuel
  induction fuel with
  | zero =>
    intro st st1 heq
    simp only [knuthDims] at heq
    split at heq
    · exact absurd heq (by simp)
    · simp only [Except.ok.injEq] at heq
      subst heq
      exact le_refl _
  | succ fuel ih =>
    intro st st1 heq
    simp only [knuthDims] at heq
    split at heq
    · split at heq
      · exact absurd heq (by simp)
      case h_2 stA hA =>
        exact le_trans (ih _ _ heq) (dimStep_s_le _ _ _ _ _ hA)
    · simp only [Except.ok.injEq] at heq
      subst heq
      exact le_refl _

theorem iterDim_s_le (fuel : ℕ) (a m : ℤ) :
    ∀ (n : ℕ) (st st1 : MatSt), iterDim fuel a m n st = .ok st1 → st1.s ≤ st.s := by
  intro n
  induction n with
  | zero =>
    intro st st1 heq
    simp only [iterDim, Except.ok.injEq] at heq
    subst heq
    exact le_refl _
  | succ n ih =>
    intro st st1 heq
    simp only [iterDim] at heq
    split at heq
    · exact absurd heq (by simp)
    case h_2 stA hA =>
      exact le_trans (ih _ _ heq) (dimStep_s_le _ _ _ _ _ hA)

theorem knuth_s_le (fuel : ℕ) (T a m v : ℤ)
    (heq : knuth fuel T a m = .ok v) : v ≤ 1 + a ^ 2 := by
  simp only [knuth] at heq
  split at heq
  · exact absurd heq (by simp)
  case h_2 e he =>
    have hbase := euclidPhase_s_le _ _ _ _ he
    split at heq
    · simp only [Except.ok.injEq] at heq
      subst heq
      exact hbase
    · split at heq
      · exact absurd heq (by simp)
      case h_2 st hd =>
        simp only [Except.ok.injEq] at heq
        subst heq
        exact le_trans (knuthDims_s_le _ _ _ _ _ _ hd) hbase

/-! The Euclidean loop maintains `EuclidCore`, which forces the initial
bases of `initUV` to satisfy the duality relation. -/

theorem euclidLoop_core (m : ℤ) :
    ∀ (fuel : ℕ) (h h_prime p p_prime s u v : ℤ) (e : ESt) (u1 v1 : ℤ),
      EuclidCore m h h_prime p p_prime →
      u = h_prime - Int.fdiv h_prime h * h →
      v = p_prime - Int.fdiv h_prime h * p →
      euclidLoop fuel h h_prime p p_prime s u v = .ok (e, u1, v1) →
      EuclidCore m e.h e.h_prime e.p e.p_prime := by
  intro fuel
  induction fuel with
  | zero =>
    intro h h_prime p p_prime s u v e u1 v1 hc hu hv heq
    simp only [euclidLoop] at heq
    split at heq
    · exact absurd heq (by simp)
    · simp only [Except.ok.injEq, Prod.mk.injEq] at heq
      obtain ⟨he, -, -⟩ := heq
      subst he
      exact hc
  | succ fuel ih =>
    intro h h_prime p p_prime s u v e u1 v1 hc hu hv heq
    simp only [euclidLoop] at heq
    split at heq
    case isTrue hguard =>
      split at heq
      · exact absurd heq (by simp)
      case h_2 q hq =>
        obtain ⟨h0, hlt, hdisj⟩ := hc
        -- the division succeeded, so the new `h` (that is `u`) is nonzero
        have hu0 : u ≠ 0 := by
          intro h'
          rw [pyFloorDiv, if_pos h'] at hq
          exact absurd hq (by simp)
        have hqval : q = Int.fdiv h u := by
          rw [pyFloorDiv, if_neg hu0] at hq
          simpa using hq.symm
        -- u is the remainder of h_prime by h, hence 0 ≤ u < h
        have humod : u = h_prime % h := by
          rw [hu, Int.fdiv_eq_ediv _ (le_of_lt h0), Int.emod_def]
          ring
        have hupos : 0 < u := by
          rcases lt_or_eq_of_le (Int.emod_nonneg h_prime (ne_of_gt h0)) with hlt' | heq'
          · rw [humod]; exact hlt'
          · exact absurd (humod.trans heq'.symm) hu0
        have huh : u < h := by rw [humod]; exact Int.emod_lt_of_pos h_prime h0
        -- the old quotient is at least 1
        have hq0 : 1 ≤ Int.fdiv h_prime h := by
          rw [Int.fdiv_eq_ediv _ (le_of_lt h0)]
          exact (Int.le_ediv_iff_mul_le h0).mpr (by linarith)
        -- the rotated state satisfies the invariant with flipped sign
        have hcore : EuclidCore m u h v p := by
          refine ⟨hupos, huh, ?_⟩
          rcases hdisj with ⟨hp, hpp, hdet⟩ | ⟨hp, hpp, hdet⟩
          · refine Or.inr ⟨?_, hp, ?_⟩
            · have : Int.fdiv h_prime h * p ≥ 1 * p :=
                mul_le_mul_of_nonneg_right hq0 (le_of_lt hp)
              rw [hv]; linarith
            · have hexp : u * p - h * v = -(h * p_prime - h_prime * p) := by
                rw [hu, hv]; ring
              rw [hexp, hdet]; ring
          · refine Or.inl ⟨?_, le_of_lt hp, ?_⟩
            · have : Int.fdiv h_prime h * p ≤ 1 * p := by
                have hple : p ≤ 0 := le_of_lt hp
                exact mul_le_mul_of_nonpos_right hq0 hple
              rw [hv]; linarith
            · have hexp : u * p - h * v = -(h * p_prime - h_prime * p) := by
                rw [hu, hv]; ring
              rw [hexp, hdet]
        refine ih u h v p _ _ _ e u1 v1 hcore ?_ ?_ heq
        · rw [hqval]
        · rw [hqval]
    case isFalse hguard =>
      simp only [Except.ok.injEq, Prod.mk.injEq] at heq
      obtain ⟨he, -, -⟩ := heq
      subst he
      exact hc

theorem euclidPhase_core (fuel : ℕ) (a m : ℤ) (e : ESt)
    (h1 : 1 ≤ a) (h2 : a < m) (heq : euclidPhase fuel a m = .ok e) :
    EuclidCore m e.h e.h_prime e.p e.p_prime := by
  simp only [euclidPhase] at heq
  split at heq
  · exact absurd heq (by simp)
  case h_2 q hq =>
    split at heq
    · exact absurd heq (by simp)
    case h_2 e1 u v hloop =>
      have ha0 : a ≠ 0 := by omega
      have hqval : q = Int.fdiv m a := by
        rw [pyFloorDiv, if_neg ha0] at hq
        simpa using hq.symm
      have hinit : EuclidCore m a m 1 0 :=
        ⟨by omega, h2, Or.inl ⟨one_pos, le_refl 0, by ring⟩⟩
      have hcore := euclidLoop_core m fuel a m 1 0 (1 + a ^ 2) _ _ e1 u v hinit
        (by rw [hqval]) (by rw [hqval]) hloop
      simp only [Except.ok.injEq] at heq
      subst heq
      exact hcore

theorem initUV_dual (m : ℤ) (e : ESt)
    (hc : EuclidCore m e.h e.h_prime e.p e.p_prime) :
    DualUV m (initUV e).1 (initUV e).2 := by
  obtain ⟨-, -, hdisj⟩ := hc
  intro i hi j hj
  rcases hdisj with ⟨hp, hpp, hdet⟩ | ⟨hp, hpp, hdet⟩
  · simp only [initUV, if_pos hpp] at hi hj ⊢
    simp only [List.length_cons, List.length_nil] at hi hj
    interval_cases i <;> interval_cases j <;>
      simp [dot_cons, dot_nil_left, List.getD] <;> linarith
  · have hppneg : ¬ e.p_prime ≤ 0 := by linarith
    simp only [initUV, if_neg hppneg] at hi hj ⊢
    simp only [List.length_cons, List.length_nil] at hi hj
    interval_cases i <;> interval_cases j <;>
      simp [dot_cons, dot_nil_left, List.getD] <;> linarith

theorem matInit_wf_dual (fuel : ℕ) (a m : ℤ) (st0 : MatSt)
    (h1 : 1 ≤ a) (h2 : a < m) (heq : matInit fuel a m = .ok st0) :
    Wf st0 ∧ DualUV m st0.U st0.V := by
  simp only [matInit] at heq
  split at heq
  · exact absurd heq (by simp)
  case h_2 e he =>
    have hc := euclidPhase_core fuel a m e h1 h2 he
    simp only [Except.ok.injEq] at heq
    subst heq
    constructor
    · refine ⟨le_refl 2, ⟨by simp [initUV], ?_⟩, ⟨?_, ?_⟩⟩
      · intro i hi
        interval_cases i <;> simp [initUV, List.getD]
      · simp only [initUV]
        split <;> simp
      · intro i hi
        simp only [initUV]
        split <;> (interval_cases i <;> simp [List.getD])
    · exact initUV_dual m e hc

/-! The pairwise reduction step preserves the duality relation: subtracting
`q · V[j]` from `V[i]` while adding `q · U[i]` to `U[j]` is a dual pair of
elementary transformations, for ANY integer `q` - so the conclusion does not
depend on how the source rounds the quotient at line 96. -/

theorem dual_step (m : ℤ) (t i j : ℕ) (q : ℤ) (U V : List (List ℤ))
    (hij : i ≠ j) (hit : i < t) (hjt : j < t)
    (hU : RowsLen U t) (hV : RowsLen V t) (hd : DualUV m U V) :
    RowsLen (U.set j (add (U.getD j []) (scalarmult q (U.getD i [])))) t ∧
    RowsLen (V.set i (sub (V.getD i []) (scalarmult q (V.getD j [])))) t ∧
    DualUV m (U.set j (add (U.getD j []) (scalarmult q (U.getD i []))))
      (V.set i (sub (V.getD i []) (scalarmult q (V.getD j [])))) := by
  obtain ⟨hUlen, hUrows⟩ := hU
  obtain ⟨hVlen, hVrows⟩ := hV
  have hUj := hUrows j hjt
  have hUi := hUrows i hit
  have hVj := hVrows j hjt
  have hVi := hVrows i hit
  have hd' : ∀ x y, x < t → y < t →
      dot (U.getD x []) (V.getD y []) = if x = y then m else 0 := by
    intro x y hx hy
    exact hd x (by omega) y (by omega)
  have hULrows : RowsLen (U.set j (add (U.getD j []) (scalarmult q (U.getD i [])))) t := by
    refine ⟨by simpa using hUlen, ?_⟩
    intro x hx
    by_cases hxj : x = j
    · subst hxj
      rw [getD_set_eq _ _ _ _ (by omega)]
      rw [length_add, length_scalarmult, hUj, hUi, min_self]
    · rw [getD_set_ne _ _ _ _ _ (fun hc => hxj hc.symm)]
      exact hUrows x hx
  have hVLrows : RowsLen (V.set i (sub (V.getD i []) (scalarmult q (V.getD j [])))) t := by
    refine ⟨by simpa using hVlen, ?_⟩
    intro y hy
    by_cases hyi : y = i
    · subst hyi
      rw [getD_set_eq _ _ _ _ (by omega)]
      rw [length_sub, length_scalarmult, hVi, hVj, min_self]
    · rw [getD_set_ne _ _ _ _ _ (fun hc => hyi hc.symm)]
      exact hVrows y hy
  refine ⟨hULrows, hVLrows, ?_⟩
  intro x hx y hy
  have hxt : x < t := by
    have := hULrows.1
    omega
  have hyt : y < t := by
    have := hVLrows.1
    omega
  by_cases hxj : x = j <;> by_cases hyi : y = i
  · rw [hxj, hyi]
    rw [getD_set_eq _ _ _ _ (by omega), getD_set_eq _ _ _ _ (by omega)]
    rw [dot_add_left _ _ _ (by rw [length_scalarmult, hUj, hUi]), dot_smul_left]
    rw [dot_sub_right _ _ _ (by rw [length_scalarmult, hVi, hVj]), dot_smul_right]
    rw [dot_sub_right _ _ _ (by rw [length_scalarmult, hVi, hVj]), dot_smul_right]
    rw [hd' j i hjt hit, hd' j j hjt hjt, hd' i i hit hit, hd' i j hit hjt]
    simp only [if_neg (fun hc : j = i => hij hc.symm), if_pos rfl,
      if_neg hij]
    ring_nf
  · rw [hxj]
    rw [getD_set_eq _ _ _ _ (by omega),
        getD_set_ne _ _ _ _ _ (fun hc => hyi hc.symm)]
    rw [dot_add_left _ _ _ (by rw [length_scalarmult, hUj, hUi]), dot_smul_left]
    rw [hd' j y hjt hyt, hd' i y hit hyt]
    rw [if_neg (fun hc : i = y => hyi hc.symm)]
    ring_nf
  · rw [hyi]
    rw [getD_set_ne _ _ _ _ _ (fun hc => hxj hc.symm),
        getD_set_eq _ _ _ _ (by omega)]
    rw [dot_sub_right _ _ _ (by rw [length_scalarmult, hVi, hVj]), dot_smul_right]
    rw [hd' x i hxt hit, hd' x j hxt hjt]
    rw [if_neg hxj]
    ring_nf
  · rw [getD_set_ne _ _ _ _ _ (fun hc => hxj hc.symm),
        getD_set_ne _ _ _ _ _ (fun hc => hyi hc.symm)]
    exact hd' x y hxt hyt

theorem reducePass_preserves (m : ℤ) (t j : ℕ) (hjt : j < t) :
    ∀ (is : List ℕ) (U V : List (List ℤ)) (s : ℤ) (k : ℕ),
      (∀ i ∈ is, i < t) →
      RowsLen U t → RowsLen V t → DualUV m U V →
      RowsLen (reducePass j is (U, V, s, k)).1 t ∧
      RowsLen (reducePass j is (U, V, s, k)).2.1 t ∧
      DualUV m (reducePass j is (U, V, s, k)).1 (reducePass j is (U, V, s, k)).2.1 := by
  intro is
  induction is with
  | nil =>
    intro U V s k hmem hU hV hd
    exact ⟨hU, hV, hd⟩
  | cons i is ih =>
    intro U V s k hmem hU hV hd
    have hit_of : i ∈ i :: is := by simp
    simp only [reducePass]
    split
    case isTrue hcond =>
      obtain ⟨hstep1, hstep2, hstep3⟩ :=
        dual_step m t i j _ U V hcond.1 (hmem i hit_of) hjt hU hV hd
      exact ih _ _ _ _ (fun x hx => hmem x (by simp [hx])) hstep1 hstep2 hstep3
    case isFalse hcond =>
      exact ih _ _ _ _ (fun x hx => hmem x (by simp [hx])) hU hV hd

theorem reduceLoop_preserves (m : ℤ) (t : ℕ) :
    ∀ (fuel j k : ℕ) (U V : List (List ℤ)) (s : ℤ) (U1 V1 : List (List ℤ)) (s1 : ℤ),
      j < t →
      RowsLen U t → RowsLen V t → DualUV m U V →
      reduceLoop t fuel j k (U, V, s) = .ok (U1, V1, s1) →
      RowsLen U1 t ∧ RowsLen V1 t ∧ DualUV m U1 V1 := by
  intro fuel
  induction fuel with
  | zero =>
    intro j k U V s U1 V1 s1 hjt hU hV hd heq
    simp only [reduceLoop] at heq
    split at heq
    · exact absurd heq (by simp)
    · simp only [Except.ok.injEq, Prod.mk.injEq] at heq
      obtain ⟨h1, h2, h3⟩ := heq
      subst h1; subst h2
      exact ⟨hU, hV, hd⟩
  | succ fuel ih =>
    intro j k U V s U1 V1 s1 hjt hU hV hd heq
    simp only [reduceLoop] at heq
    split at heq
    case isTrue hne =>
      obtain ⟨hp1, hp2, hp3⟩ :=
        reducePass_preserves m t j hjt (List.range t) U V s k
          (fun x hx => List.mem_range.mp hx) hU hV hd
      have hj1 : (if j = t - 1 then 0 else j + 1) < t := by
        split <;> omega
      exact ih _ _ _ _ _ _ _ _ hj1 hp1 hp2 hp3 heq
    case isFalse hne =>
      simp only [Except.ok.injEq, Prod.mk.injEq] at heq
      obtain ⟨h1, h2, h3⟩ := heq
      subst h1; subst h2
      exact ⟨hU, hV, hd⟩

theorem reducePhase_preserves (m : ℤ) (fuel : ℕ) (st st1 : MatSt)
    (hwf : Wf st) (hd : DualUV m st.U st.V)
    (heq : reducePhase fuel st = .ok st1) :
    Wf st1 ∧ DualUV m st1.U st1.V ∧ st1.t = st.t ∧ st1.r = st.r := by
  obtain ⟨ht2, hU, hV⟩ := hwf
  simp only [reducePhase] at heq
  split at heq
  · exact absurd heq (by simp)
  case h_2 U V s hloop =>
    obtain ⟨h1, h2, h3⟩ :=
      reduceLoop_preserves m st.t fuel 0 (st.t - 1) st.U st.V st.s U V s
        (by omega) hU hV hd hloop
    simp only [Except.ok.injEq] at heq
    subst heq
    exact ⟨⟨ht2, h1, h2⟩, h3, rfl, rfl⟩

/-! Characterisation of the extension step: the re-centering loop leaves
every prior primal row untouched (apart from the appended zero), rewrites
each prior dual row's last coordinate, and folds the multiples `q_i` of the
prior PRIMAL rows into the newly appended primal row `U[t-1]` - the
transposed update of what the spec asserts. -/

theorem getD_replicate_zero (n j : ℕ) : (List.replicate n (0 : ℤ)).getD j 0 = 0 := by
  induction n generalizing j with
  | zero => simp
  | succ n ih =>
    cases j with
    | zero => simp
    | succ j => simpa [List.replicate_succ] using ih j

theorem dot_head_single (k : ℕ) (c e d : ℤ) (ys : List ℤ) (h : ys.length = k + 1) :
    dot (c :: (List.replicate k 0 ++ [e])) (ys ++ [d]) = c * ys.getD 0 0 + e * d := by
  cases ys with
  | nil => simp at h
  | cons y ytail =>
    have hlen : ytail.length = k := by simpa using h
    have : dot (List.replicate k 0 ++ [e]) (ytail ++ [d]) = e * d := by
      rw [dot_append_single _ _ _ _ (by rw [List.length_replicate, hlen]),
        dot_replicate_zero_left]
      ring
    simp only [List.cons_append, dot_cons, this, List.getD]
    simp

theorem sum_map_range_ite (g : ℕ → ℤ) :
    ∀ (n y : ℕ), y < n →
      ((List.range n).map (fun i => if i = y then g i else 0)).sum = g y := by
  intro n
  induction n with
  | zero => intro y hy; omega
  | succ n ih =>
    intro y hy
    rw [List.range_succ, List.map_append, List.sum_append]
    by_cases hyn : y = n
    · subst hyn
      have : ((List.range y).map (fun i => if i = y then g i else 0)).sum = 0 := by
        have hmap : (List.range y).map (fun i => if i = y then g i else 0) =
            (List.range y).map (fun _ => (0 : ℤ)) := by
          refine List.map_congr_left ?_
          intro b hb
          have hb' : b < y := List.mem_range.mp hb
          rw [if_neg (by omega : ¬ b = y)]
        rw [hmap]
        simp
      rw [this]
      simp
    · have hy' : y < n := by omega
      rw [ih y hy']
      have hny : ¬ (n = y) := fun hc => hyn hc.symm
      simp [hny]

theorem foldl_add_smul_length (L : ℕ) (c : ℕ → ℤ) (w : ℕ → List ℤ) :
    ∀ (is : List ℕ) (base : List ℤ), base.length = L →
      (∀ i ∈ is, (w i).length = L) →
      (is.foldl (fun acc i => add acc (scalarmult (c i) (w i))) base).length = L := by
  intro is
  induction is with
  | nil => intro base hb _; simpa using hb
  | cons i is ih =>
    intro base hb hw
    simp only [List.foldl_cons]
    refine ih _ ?_ (fun x hx => hw x (by simp [hx]))
    rw [length_add, length_scalarmult, hb, hw i (by simp), min_self]

theorem dot_foldl_add_smul (c : ℕ → ℤ) (w : ℕ → List ℤ) (z : List ℤ) (L : ℕ) :
    ∀ (is : List ℕ) (base : List ℤ), base.length = L →
      (∀ i ∈ is, (w i).length = L) →
      dot (is.foldl (fun acc i => add acc (scalarmult (c i) (w i))) base) z =
        dot base z + (is.map (fun i => c i * dot (w i) z)).sum := by
  intro is
  induction is with
  | nil => intro base hb _; simp
  | cons i is ih =>
    intro base hb hw
    simp only [List.foldl_cons, List.map_cons, List.sum_cons]
    rw [ih _ (by rw [length_add, length_scalarmult, hb, hw i (by simp), min_self])
      (fun x hx => hw x (by simp [hx]))]
    rw [dot_add_left _ _ _ (by rw [length_scalarmult, hb, hw i (by simp)]),
      dot_smul_left]
    ring

theorem extendLoop_char (m r : ℤ) (hm : m ≠ 0) (n : ℕ) :
    ∀ (is : List ℕ) (U V : List (List ℤ)),
      (∀ i ∈ is, i < n) → is.Nodup →
      U.length = n + 1 → V.length = n + 1 →
      ∃ Uf Vf,
        extendLoop m r (n + 1) is (U, V) = .ok (Uf, Vf) ∧
        Uf.length = n + 1 ∧ Vf.length = n + 1 ∧
        (∀ j, j ≠ n → Uf.getD j [] = U.getD j []) ∧
        Uf.getD n [] =
          is.foldl (fun acc i =>
            add acc (scalarmult (qOf m r (V.getD i [])) (U.getD i []))) (U.getD n []) ∧
        (∀ j, j ∉ is → Vf.getD j [] = V.getD j []) ∧
        (∀ j ∈ is,
          Vf.getD j [] =
            (V.getD j []).set n ((V.getD j []).getD 0 0 * r - qOf m r (V.getD j []) * m)) := by
  intro is
  induction is with
  | nil =>
    intro U V hmem hnd hU hV
    refine ⟨U, V, by simp [extendLoop], hU, hV, fun j _ => rfl, by simp,
      fun j _ => rfl, fun j hj => absurd hj (by simp)⟩
  | cons i is ih =>
    intro U V hmem hnd hU hV
    have hin : i < n := hmem i (by simp)
    have hi_not : i ∉ is := by
      simp only [List.nodup_cons] at hnd
      exact hnd.1
    have hnd' : is.Nodup := by
      simp only [List.nodup_cons] at hnd
      exact hnd.2
    simp only [extendLoop]
    rw [pyFloorDiv, if_neg hm]
    set q := Int.fdiv ((V.getD i []).getD 0 0 * r) m with hq
    have hqOf : q = qOf m r (V.getD i []) := rfl
    set U1 := U.set (n + 1 - 1) (add (U.getD (n + 1 - 1) []) (scalarmult q (U.getD i [])))
      with hU1
    set V1 := V.set i ((V.getD i []).set (n + 1 - 1)
      ((V.getD i []).getD 0 0 * r - q * m)) with hV1
    have hn1 : n + 1 - 1 = n := by omega
    obtain ⟨Uf, Vf, hloop, hUfl, hVfl, hUother, hUlast, hVother, hVmem⟩ :=
      ih U1 V1 (fun x hx => hmem x (by simp [hx])) hnd'
        (by rw [hU1, List.length_set, hU]) (by rw [hV1, List.length_set, hV])
    refine ⟨Uf, Vf, hloop, hUfl, hVfl, ?_, ?_, ?_, ?_⟩
    · intro j hj
      rw [hUother j hj, hU1, hn1, getD_set_ne _ _ _ _ _ (fun hc => hj hc.symm)]
    · rw [hUlast]
      have hU1n : U1.getD n [] = add (U.getD n []) (scalarmult q (U.getD i [])) := by
        rw [hU1, hn1, getD_set_eq _ _ _ _ (by omega)]
      have hfold :
          is.foldl (fun acc x =>
            add acc (scalarmult (qOf m r (V1.getD x [])) (U1.getD x []))) (U1.getD n []) =
          is.foldl (fun acc x =>
            add acc (scalarmult (qOf m r (V.getD x [])) (U.getD x []))) (U1.getD n []) := by
        refine List.foldl_ext _ _ _ ?_
        intro acc x hx
        have hxn : x < n := hmem x (by simp [hx])
        have hxi : x ≠ i := fun hc => hi_not (hc ▸ hx)
        rw [hV1, getD_set_ne _ _ _ _ _ (fun hc => hxi hc.symm),
          hU1, hn1, getD_set_ne _ _ _ _ _ (by omega)]
      rw [hfold, hU1n, hqOf, List.foldl_cons]
    · intro j hj
      have hji : j ≠ i := by
        intro hc
        exact hj (by simp [hc])
      have hjis : j ∉ is := fun hc => hj (by simp [hc])
      rw [hVother j hjis, hV1, getD_set_ne _ _ _ _ _ (fun hc => hji hc.symm)]
    · intro j hj
      rcases List.mem_cons.mp hj with hji | hjis
      · subst hji
        rw [hVother j hi_not, hV1, getD_set_eq _ _ _ _ (by omega), hn1, hqOf]
      · have hji : j ≠ i := fun hc => hi_not (hc ▸ hjis)
        rw [hVmem j hjis, hV1, getD_set_ne _ _ _ _ _ (fun hc => hji hc.symm)]

theorem extendPhase_char (a m : ℤ) (st : MatSt) (hm : m ≠ 0) (hwf : Wf st) :
    ∃ (st1 : MatSt) (r1 : ℤ),
      extendPhase a m st = .ok st1 ∧
      pyMod (a * st.r) m = .ok r1 ∧
      st1.t = st.t + 1 ∧ st1.r = r1 ∧
      st1.U.length = st.t + 1 ∧ st1.V.length = st.t + 1 ∧
      (∀ i < st.t, st1.U.getD i [] = st.U.getD i [] ++ [0]) ∧
      st1.U.getD st.t [] =
        (List.range st.t).foldl
          (fun acc i => add acc (scalarmult (qOf m r1 (st.V.getD i []))
            (st.U.getD i [] ++ [0])))
          ([-r1] ++ List.replicate (st.t - 1) 0 ++ [1]) ∧
      (∀ i < st.t, st1.V.getD i [] =
        st.V.getD i [] ++
          [(st.V.getD i []).getD 0 0 * r1 - qOf m r1 (st.V.getD i []) * m]) ∧
      st1.V.getD st.t [] = List.replicate st.t 0 ++ [m] ∧
      st1.s = min st.s (dot (st1.U.getD st.t []) (st1.U.getD st.t [])) := by
  obtain ⟨ht2, ⟨hUlen, hUrows⟩, ⟨hVlen, hVrows⟩⟩ := hwf
  set n := st.t with hn
  set r1 := Int.fmod (a * st.r) m with hr1
  set base : List ℤ := [-r1] ++ List.replicate (n - 1) 0 ++ [1] with hbase
  set newdual : List ℤ := List.replicate n (0 : ℤ) ++ [m] with hnewdual
  set U0 := st.U.map (fun row => row ++ [(0 : ℤ)]) ++ [base] with hU0
  set V0 := st.V.map (fun row => row ++ [(0 : ℤ)]) ++ [newdual] with hV0
  have hU0len : U0.length = n + 1 := by
    rw [hU0, List.length_append, List.length_map, hUlen]; rfl
  have hV0len : V0.length = n + 1 := by
    rw [hV0, List.length_append, List.length_map, hVlen]; rfl
  have hU0i : ∀ i < n, U0.getD i [] = st.U.getD i [] ++ [0] := by
    intro i hi
    rw [hU0, getD_append_left _ _ _ _ (by rw [List.length_map, hUlen]; omega),
      getD_map_pad _ _ (by omega)]
  have hV0i : ∀ i < n, V0.getD i [] = st.V.getD i [] ++ [0] := by
    intro i hi
    rw [hV0, getD_append_left _ _ _ _ (by rw [List.length_map, hVlen]; omega),
      getD_map_pad _ _ (by omega)]
  have hU0n : U0.getD n [] = base := by
    rw [hU0]
    have : n = (st.U.map (fun row => row ++ [(0 : ℤ)])).length := by
      rw [List.length_map, hUlen]
    rw [this]
    exact getD_append_length _ [] _ _
  have hV0n : V0.getD n [] = newdual := by
    rw [hV0]
    have : n = (st.V.map (fun row => row ++ [(0 : ℤ)])).length := by
      rw [List.length_map, hVlen]
    rw [this]
    exact getD_append_length _ [] _ _
  obtain ⟨Uf, Vf, hloop, hUfl, hVfl, hUother, hUlast, hVother, hVmem⟩ :=
    extendLoop_char m r1 hm n (List.range n) U0 V0
      (fun i hi => List.mem_range.mp hi) (List.nodup_range n) hU0len hV0len
  refine ⟨⟨n + 1, r1, min st.s (dot (Uf.getD n []) (Uf.getD n [])), Uf, Vf⟩, r1,
    ?_, ?_, rfl, rfl, hUfl, hVfl, ?_, ?_, ?_, ?_, rfl⟩
  · have hloop' := hloop
    simp only [hU0, hV0, hbase, hnewdual, hr1, hn] at hloop'
    simp only [extendPhase, pyMod, if_neg hm]
    rw [hloop']
  · rw [pyMod, if_neg hm]
  · intro i hi
    rw [hUother i (by omega), hU0i i hi]
  · rw [hUlast]
    have hext : ∀ (acc : List ℤ) (i : ℕ), i ∈ List.range n →
        add acc (scalarmult (qOf m r1 (V0.getD i [])) (U0.getD i [])) =
        add acc (scalarmult (qOf m r1 (st.V.getD i [])) (st.U.getD i [] ++ [0])) := by
      intro acc i hi
      have hin : i < n := List.mem_range.mp hi
      rw [hU0i i hin, hV0i i hin]
      have : qOf m r1 (st.V.getD i [] ++ [0]) = qOf m r1 (st.V.getD i []) := by
        rw [qOf, qOf, getD_append_left _ _ _ _ (by rw [hVrows i hin]; omega)]
      rw [this]
    rw [List.foldl_ext _ _ _ hext, hU0n]
  · intro i hi
    have hrow : (V0.getD i []).length = n + 1 := by
      rw [hV0i i hi, List.length_append, hVrows i hi]; rfl
    rw [hVmem i (List.mem_range.mpr hi), hV0i i hi]
    have hset : (st.V.getD i [] ++ [(0 : ℤ)]).set n
        ((st.V.getD i [] ++ [0]).getD 0 0 * r1 -
          qOf m r1 (st.V.getD i [] ++ [0]) * m) =
        st.V.getD i [] ++
          [(st.V.getD i []).getD 0 0 * r1 - qOf m r1 (st.V.getD i []) * m] := by
      have h0 : (st.V.getD i [] ++ [(0 : ℤ)]).getD 0 0 = (st.V.getD i []).getD 0 0 :=
        getD_append_left _ _ _ _ (by rw [hVrows i hi]; omega)
      have hq : qOf m r1 (st.V.getD i [] ++ [0]) = qOf m r1 (st.V.getD i []) := by
        rw [qOf, qOf, getD_append_left _ _ _ _ (by rw [hVrows i hi]; omega)]
      rw [h0, hq]
      have : n = (st.V.getD i []).length := (hVrows i hi).symm
      rw [this, set_append_length]
    rw [hset]
  · rw [hVother n (by simp), hV0n]

theorem extendPhase_preserves (a m : ℤ) (st st1 : MatSt)
    (hm : m ≠ 0) (hwf : Wf st) (hd : DualUV m st.U st.V)
    (heq : extendPhase a m st = .ok st1) :
    Wf st1 ∧ DualUV m st1.U st1.V ∧ st1.t = st.t + 1 := by
  obtain ⟨st2, r1, heq2, hmod, ht, hr, hUl, hVl, hUi, hUn, hVi, hVn, hs⟩ :=
    extendPhase_char a m st hm hwf
  rw [heq] at heq2
  have hst : st1 = st2 := by
    simpa using heq2
  subst hst
  obtain ⟨ht2, ⟨hUlen, hUrows⟩, ⟨hVlen, hVrows⟩⟩ := hwf
  set n := st.t with hn
  have hbaselen : ([-r1] ++ List.replicate (n - 1) (0 : ℤ) ++ [1]).length = n + 1 := by
    simp only [List.length_append, List.length_replicate, List.length_cons,
      List.length_nil]
    omega
  have hwlen : ∀ i ∈ List.range n, (st.U.getD i [] ++ [(0 : ℤ)]).length = n + 1 := by
    intro i hi
    rw [List.length_append, hUrows i (List.mem_range.mp hi)]; rfl
  have hUlastlen : (st1.U.getD n []).length = n + 1 := by
    rw [hUn]
    exact foldl_add_smul_length (n + 1) _ _ (List.range n) _ hbaselen hwlen
  have hd' : ∀ x y, x < n → y < n →
      dot (st.U.getD x []) (st.V.getD y []) = if x = y then m else 0 := by
    intro x y hx hy
    exact hd x (by omega) y (by omega)
  have hwf1 : Wf st1 := by
    refine ⟨by omega, ⟨by rw [ht]; exact hUl, ?_⟩, ⟨by rw [ht]; exact hVl, ?_⟩⟩
    · intro i hi
      rw [ht] at hi
      by_cases hin : i = n
      · subst hin
        rw [ht]
        exact hUlastlen
      · have hilt : i < n := by omega
        rw [ht, hUi i hilt, List.length_append, hUrows i hilt]; rfl
    · intro i hi
      rw [ht] at hi
      by_cases hin : i = n
      · subst hin
        rw [ht, hVn]
        simp only [List.length_append, List.length_replicate, List.length_cons,
          List.length_nil]
      · have hilt : i < n := by omega
        rw [ht, hVi i hilt, List.length_append, hVrows i hilt]; rfl
  refine ⟨hwf1, ?_, ht⟩
  intro x hx y hy
  rw [hUl] at hx
  rw [hVl] at hy
  by_cases hxn : x = n <;> by_cases hyn : y = n
  · rw [hxn, hyn, hUn, hVn]
    rw [dot_foldl_add_smul _ _ _ (n + 1) (List.range n) _ hbaselen hwlen]
    have hbasedot :
        dot ([-r1] ++ List.replicate (n - 1) 0 ++ [1])
          (List.replicate n (0 : ℤ) ++ [m]) = m := by
      have hform : ([-r1] ++ List.replicate (n - 1) (0 : ℤ) ++ [1]) =
          (-r1) :: (List.replicate (n - 1) (0 : ℤ) ++ [1]) := by
        simp
      rw [hform, dot_head_single (n - 1) (-r1) 1 m (List.replicate n 0)
        (by rw [List.length_replicate]; omega)]
      rw [getD_replicate_zero]
      ring
    rw [hbasedot]
    have hterms : (List.range n).map
        (fun i => qOf m r1 (st.V.getD i []) *
          dot (st.U.getD i [] ++ [0]) (List.replicate n (0 : ℤ) ++ [m])) =
        (List.range n).map (fun _ => (0 : ℤ)) := by
      refine List.map_congr_left ?_
      intro i hi
      have hin : i < n := List.mem_range.mp hi
      rw [dot_append_single _ _ _ _ (by rw [hUrows i hin, List.length_replicate]),
        dot_replicate_zero_right]
      ring
    rw [hterms]
    simp
  · rw [hxn, hUn, hVi y (by omega)]
    have hylt : y < n := by omega
    rw [dot_foldl_add_smul _ _ _ (n + 1) (List.range n) _ hbaselen hwlen]
    set wy : ℤ := (st.V.getD y []).getD 0 0 * r1 - qOf m r1 (st.V.getD y []) * m
      with hwy
    have hbasedot :
        dot ([-r1] ++ List.replicate (n - 1) 0 ++ [1]) (st.V.getD y [] ++ [wy]) =
          -r1 * (st.V.getD y []).getD 0 0 + wy := by
      have hform : ([-r1] ++ List.replicate (n - 1) (0 : ℤ) ++ [1]) =
          (-r1) :: (List.replicate (n - 1) (0 : ℤ) ++ [1]) := by
        simp
      rw [hform, dot_head_single (n - 1) (-r1) 1 wy (st.V.getD y [])
        (by rw [hVrows y hylt]; omega)]
      ring
    rw [hbasedot]
    have hterms : (List.range n).map
        (fun i => qOf m r1 (st.V.getD i []) *
          dot (st.U.getD i [] ++ [0]) (st.V.getD y [] ++ [wy])) =
        (List.range n).map
          (fun i => if i = y then qOf m r1 (st.V.getD i []) * m else 0) := by
      refine List.map_congr_left ?_
      intro i hi
      have hin : i < n := List.mem_range.mp hi
      rw [dot_append_single _ _ _ _ (by rw [hUrows i hin, hVrows y hylt]),
        hd' i y hin hylt]
      by_cases hiy : i = y
      · rw [if_pos hiy, if_pos hiy]
        ring
      · rw [if_neg hiy, if_neg hiy]
        ring
    rw [hterms, sum_map_range_ite _ n y hylt]
    rw [if_neg (by omega : ¬ n = y)]
    rw [hwy]
    ring
  · rw [hyn, hUi x (by omega), hVn]
    have hxlt : x < n := by omega
    rw [dot_append_single _ _ _ _ (by rw [hUrows x hxlt, List.length_replicate]),
      dot_replicate_zero_right]
    rw [if_neg (by omega : ¬ x = n)]
    ring
  · have hxlt : x < n := by omega
    have hylt : y < n := by omega
    rw [hUi x hxlt, hVi y hylt,
      dot_append_single _ _ _ _ (by rw [hUrows x hxlt, hVrows y hylt]),
      hd' x y hxlt hylt]
    ring_nf

theorem searchPhase_fixes (fuel : ℕ) (m : ℤ) (st st1 : MatSt)
    (heq : searchPhase fuel m st = .ok st1) :
    st1.U = st.U ∧ st1.V = st.V ∧ st1.t = st.t ∧ st1.r = st.r := by
  simp only [searchPhase] at heq
  split at heq
  · exact absurd heq (by simp)
  · split at heq
    · exact absurd heq (by simp)
    · simp only [Except.ok.injEq] at heq
      subst heq
      exact ⟨rfl, rfl, rfl, rfl⟩

theorem dimStep_preserves (fuel : ℕ) (a m : ℤ) (st st1 : MatSt)
    (hm : m ≠ 0) (hwf : Wf st) (hd : DualUV m st.U st.V)
    (heq : dimStep fuel a m st = .ok st1) :
    Wf st1 ∧ DualUV m st1.U st1.V := by
  simp only [dimStep] at heq
  split at heq
  · exact absurd heq (by simp)
  case h_2 stA hA =>
    split at heq
    · exact absurd heq (by simp)
    case h_2 stB hB =>
      obtain ⟨hwfA, hdA, -⟩ := extendPhase_preserves a m st stA hm hwf hd hA
      obtain ⟨hwfB, hdB, htB, -⟩ := reducePhase_preserves m fuel stA stB hwfA hdA hB
      obtain ⟨hU, hV, ht, -⟩ := searchPhase_fixes fuel m stB st1 heq
      refine ⟨?_, ?_⟩
      · obtain ⟨hB2, hBU, hBV⟩ := hwfB
        exact ⟨by omega, by rw [hU, ht]; exact hBU, by rw [hV, ht]; exact hBV⟩
      · rw [hU, hV]
        exact hdB

theorem iterDim_preserves (fuel : ℕ) (a m : ℤ) (hm : m ≠ 0) :
    ∀ (n : ℕ) (st st1 : MatSt),
      Wf st → DualUV m st.U st.V →
      iterDim fuel a m n st = .ok st1 →
      Wf st1 ∧ DualUV m st1.U st1.V := by
  intro n
  induction n with
  | zero =>
    intro st st1 hwf hd heq
    simp only [iterDim, Except.ok.injEq] at heq
    subst heq
    exact ⟨hwf, hd⟩
  | succ n ih =>
    intro st st1 hwf hd heq
    simp only [iterDim] at heq
    split at heq
    · exact absurd heq (by simp)
    case h_2 stA hA =>
      obtain ⟨hwfA, hdA⟩ := dimStep_preserves fuel a m st stA hm hwf hd hA
      exact ih stA st1 hwfA hdA heq

/-! Lemmas for the search loop: the inner `while k <= t-1` loop of step S9
never executes its body, because `k` always equals `t` when the guard is
evaluated. -/

theorem getD_of_get?_eq {α : Type} (l : List α) :
    ∀ (i : ℕ) (x d : α), l.get? i = some x → l.getD i d = x := by
  induction l with
  | nil => intro i x d h; simp at h
  | cons a l ih =>
    intro i x d h
    cases i with
    | zero =>
      simp only [List.get?, Option.some.injEq] at h
      simp [h]
    | succ i =>
      simp only [List.get?] at h
      simpa using ih i x d h

theorem pyGetI_error_eq {α : Type} (xs : List α) (i : ℤ) (e : Err)
    (h : pyGetI xs i = .error e) : e = .indexError := by
  simp only [pyGetI] at h
  split at h
  · split at h
    · exact absurd h (by simp)
    · simp only [Except.error.injEq] at h
      exact h.symm
  · simp only [Except.error.injEq] at h
    exact h.symm

theorem pySetI_error_eq {α : Type} (xs : List α) (i : ℤ) (a : α) (e : Err)
    (h : pySetI xs i a = .error e) : e = .indexError := by
  simp only [pySetI] at h
  split at h
  · split at h
    · exact absurd h (by simp)
    · simp only [Except.error.injEq] at h
      exact h.symm
  · simp only [Except.error.injEq] at h
    exact h.symm

theorem searchLoop_no_typeError (t : ℕ) (U : List (List ℤ)) (Z : List ℤ) :
    ∀ (fuel : ℕ) (X Y : List ℤ) (s : ℤ),
      searchLoop t U Z fuel X Y ((t : ℤ) - 1) s ≠ .error .typeError := by
  intro fuel
  induction fuel with
  | zero =>
    intro X Y s heq
    simp only [searchLoop] at heq
    split at heq
    case h_1 e hget =>
      simp only [Except.error.injEq] at heq
      subst heq
      exact absurd (pyGetI_error_eq _ _ _ hget) (by simp)
    case h_2 xk e hget hget2 =>
      simp only [Except.error.injEq] at heq
      subst heq
      exact absurd (pyGetI_error_eq _ _ _ hget2) (by simp)
    · split at heq
      · exact absurd heq (by simp)
      · exact absurd heq (by simp)
  | succ fuel ih =>
    intro X Y s heq
    simp only [searchLoop] at heq
    split at heq
    case h_1 e hget =>
      simp only [Except.error.injEq] at heq
      subst heq
      exact absurd (pyGetI_error_eq _ _ _ hget) (by simp)
    case h_2 xk e hget hget2 =>
      simp only [Except.error.injEq] at heq
      subst heq
      exact absurd (pyGetI_error_eq _ _ _ hget2) (by simp)
    · split at heq
      · split at heq
        case h_1 e hset =>
          simp only [Except.error.injEq] at heq
          subst heq
          exact absurd (pySetI_error_eq _ _ _ _ hset) (by simp)
        case h_2 X1 e hset hget =>
          simp only [Except.error.injEq] at heq
          subst heq
          exact absurd (pyGetI_error_eq _ _ _ hget) (by simp)
        · split at heq
          case isTrue hk =>
            exact absurd hk (by omega)
          case isFalse hk =>
            have harg : (t : ℤ) - 1 + 1 - 1 = (t : ℤ) - 1 := by ring
            rw [harg] at heq
            exact ih _ _ _ heq
      · exact absurd heq (by simp)

theorem searchLoop_X_char (t : ℕ) (U : List (List ℤ)) (Z : List ℤ) (ht : 1 ≤ t) :
    ∀ (fuel : ℕ) (X Y : List ℤ) (s : ℤ) (X1 Y1 : List ℤ) (s1 : ℤ),
      searchLoop t U Z fuel X Y ((t : ℤ) - 1) s = .ok (X1, Y1, s1) →
      ∀ i, X1.getD i 0 = if i = t - 1 then Z.getD (t - 1) 0 else X.getD i 0 := by
  have htoNat : ((t : ℤ) - 1).toNat = t - 1 := by omega
  have hknn : (0 : ℤ) ≤ (t : ℤ) - 1 := by omega
  intro fuel
  induction fuel with
  | zero =>
    intro X Y s X1 Y1 s1 heq i
    simp only [searchLoop] at heq
    split at heq
    · exact absurd heq (by simp)
    · exact absurd heq (by simp)
    case h_3 xk zk hXk hZk =>
      split at heq
      · exact absurd heq (by simp)
      case isFalse hguard =>
        simp only [Except.ok.injEq, Prod.mk.injEq] at heq
        obtain ⟨hX, -, -⟩ := heq
        subst hX
        have hxz : xk = zk := by
          by_contra hne
          exact hguard ⟨hne, hknn⟩
        simp only [pyGetI, pyIndex, if_pos hknn, htoNat] at hXk hZk
        split at hXk
        case h_1 xv hgot =>
          split at hZk
          case h_1 zv hgotZ =>
            simp only [Except.ok.injEq] at hXk hZk
            subst hXk; subst hZk
            by_cases hi : i = t - 1
            · rw [if_pos hi, hi, getD_of_get?_eq X _ _ _ hgot,
                getD_of_get?_eq Z _ _ _ hgotZ, hxz]
            · rw [if_neg hi]
          case h_2 => exact absurd hZk (by simp)
        case h_2 => exact absurd hXk (by simp)
  | succ fuel ih =>
    intro X Y s X1 Y1 s1 heq i
    simp only [searchLoop] at heq
    split at heq
    · exact absurd heq (by simp)
    · exact absurd heq (by simp)
    case h_3 xk zk hXk hZk =>
      split at heq
      case isTrue hguard =>
        split at heq
        · exact absurd heq (by simp)
        · exact absurd heq (by simp)
        case h_3 Xset Uk hset hUk =>
          split at heq
          case isTrue hk => exact absurd hk (by omega)
          case isFalse hk =>
            have harg : (t : ℤ) - 1 + 1 - 1 = (t : ℤ) - 1 := by ring
            rw [harg] at heq
            have hrec := ih _ _ _ _ _ _ heq i
            rw [hrec]
            by_cases hi : i = t - 1
            · rw [if_pos hi, if_pos hi]
            · rw [if_neg hi, if_neg hi]
              simp only [pySetI, pyIndex, if_pos hknn, htoNat] at hset
              split at hset
              · simp only [Except.ok.injEq] at hset
                subst hset
                exact getD_set_ne _ _ _ _ _ (fun hc => hi hc.symm)
              · exact absurd hset (by simp)
      case isFalse hguard =>
        simp only [Except.ok.injEq, Prod.mk.injEq] at heq
        obtain ⟨hX, -, -⟩ := heq
        subst hX
        have hxz : xk = zk := by
          by_contra hne
          exact hguard ⟨hne, hknn⟩
        simp only [pyGetI, pyIndex, if_pos hknn, htoNat] at hXk hZk
        split at hXk
        case h_1 xv hgot =>
          split at hZk
          case h_1 zv hgotZ =>
            simp only [Except.ok.injEq] at hXk hZk
            subst hXk; subst hZk
            by_cases hi : i = t - 1
            · rw [if_pos hi, hi, getD_of_get?_eq X _ _ _ hgot,
                getD_of_get?_eq Z _ _ _ hgotZ, hxz]
            · rw [if_neg hi]
          case h_2 => exact absurd hZk (by simp)
        case h_2 => exact absurd hXk (by simp)

theorem zbounds_no_typeError (m s : ℤ) :
    ∀ (V : List (List ℤ)), zbounds m s V ≠ .error .typeError := by
  intro V
  induction V with
  | nil => simp [zbounds]
  | cons Vj rest ih =>
    intro heq
    simp only [zbounds] at heq
    split at heq
    case h_1 e hz =>
      simp only [Except.error.injEq] at heq
      subst heq
      simp only [zbound] at hz
      split at hz
      case h_1 e2 hpf =>
        simp only [Except.error.injEq] at hz
        subst hz
        simp only [pyFloorDiv] at hpf
        split at hpf
        · simp only [Except.error.injEq] at hpf
          exact Err.noConfusion hpf
        · exact absurd hpf (by simp)
      · exact absurd hz (by simp)
    case h_2 z hz =>
      split at heq
      case h_1 e2 hrest =>
        simp only [Except.error.injEq] at heq
        subst heq
        exact ih hrest
      · exact absurd heq (by simp)

theorem searchPhase_no_typeError (fuel : ℕ) (m : ℤ) (st : MatSt) :
    searchPhase fuel m st ≠ .error .typeError := by
  intro heq
  simp only [searchPhase] at heq
  split at heq
  case h_1 e hzb =>
    simp only [Except.error.injEq] at heq
    subst heq
    exact zbounds_no_typeError m st.s st.V hzb
  · split at heq
    case h_1 e hloop =>
      simp only [Except.error.injEq] at heq
      subst heq
      exact searchLoop_no_typeError st.t st.U _ fuel _ _ st.s hloop
    · exact absurd heq (by simp)

/-! Claim theorems: one theorem per reviewed claim, with its witness or
counterexample. -/

/-- C1: the specification's central guarantee - that after the bounded
search phase `s` is the exact minimal squared norm over ALL nonzero vectors
of the primal lattice spanned by the rows of `U` - fails on the code.  At
`knuth(T=4, a=8, m=15)` the engine returns `s = 5`, but rows 0 and 2 of the
final primal basis differ by the nonzero lattice vector `[1,1,1,1]` of
squared norm `4 < 5`.  The search loop cannot find such combinations: its
inner loop is unreachable and `Y += U[k]` is Python list concatenation, so
`dot Y Y` only ever sees stacked copies of `U[t-1]` and `s` never decreases
during the search. -/
theorem c1_search_not_exact :
    knuth 64 4 8 15 = .ok 5 ∧
    matInit 64 8 15 = .ok ⟨2, 8, 5, [[-1, 2], [-7, -1]], [[-1, 7], [-2, -1]]⟩ ∧
    iterDim 64 8 15 2 ⟨2, 8, 5, [[-1, 2], [-7, -1]], [[-1, 7], [-2, -1]]⟩ =
      .ok ⟨4, 2, 5, [[2, -1, 1, 1], [0, -1, 2, 0], [1, -2, 0, 0], [-2, 0, 0, 1]],
           [[4, 2, 1, 8], [-2, -1, 7, -4], [-1, -8, -4, -2], [-4, -2, -1, 7]]⟩ ∧
    sub [2, -1, 1, 1] [1, -2, 0, 0] = [1, 1, 1, 1] ∧
    dot [1, 1, 1, 1] [1, 1, 1, 1] = 4 ∧
    (4 : ℤ) < 5 ∧ ([1, 1, 1, 1] : List ℤ) ≠ [0, 0, 0, 0] :=
  ⟨rfl, rfl, rfl, rfl, rfl, by decide, by decide⟩

/-- C2: the duality invariant `U · Vᵗ = m · I` holds after the extension
step completes and again after the reduction loop reaches its fixed point,
at every intermediate dimension of every non-crashing run on a valid input
(`1 ≤ a < m`).  States are addressed by the number `n` of completed
dimension steps after the Euclidean initialisation. -/
theorem c2_duality_invariant (fuel n : ℕ) (a m : ℤ) (st0 st st1 st2 : MatSt)
    (h1 : 1 ≤ a) (h2 : a < m)
    (h0 : matInit fuel a m = .ok st0)
    (hreach : iterDim fuel a m n st0 = .ok st)
    (hext : extendPhase a m st = .ok st1)
    (hred : reducePhase fuel st1 = .ok st2) :
    DualUV m st.U st.V ∧ DualUV m st1.U st1.V ∧ DualUV m st2.U st2.V := by
  have hm : m ≠ 0 := by omega
  obtain ⟨hwf0, hd0⟩ := matInit_wf_dual fuel a m st0 h1 h2 h0
  obtain ⟨hwf, hd⟩ := iterDim_preserves fuel a m hm n st0 st hwf0 hd0 hreach
  obtain ⟨hwf1, hd1, -⟩ := extendPhase_preserves a m st st1 hm hwf hd hext
  obtain ⟨hwf2, hd2, -, -⟩ := reducePhase_preserves m fuel st1 st2 hwf1 hd1 hred
  exact ⟨hd, hd1, hd2⟩

/-- Witness for C2 at `a = 3, m = 8`: the dimension-3 extension and
reduction of the first main-loop iteration both satisfy the duality
relation. -/
theorem c2_duality_witness :
    DualUV 8 [[-2, -2], [-3, 1]] [[-1, -3], [-2, 2]] ∧
    DualUV 8 [[-2, -2, 0], [-3, 1, 0], [4, 1, 1]] [[-1, -3, 7], [-2, 2, 6], [0, 0, 8]] ∧
    DualUV 8 [[-1, 0, 1], [-2, 1, -1], [1, 2, 1]] [[-3, -1, 5], [-2, 2, -2], [1, 3, 1]] :=
  c2_duality_invariant 64 0 3 8
    ⟨2, 3, 8, [[-2, -2], [-3, 1]], [[-1, -3], [-2, 2]]⟩
    ⟨2, 3, 8, [[-2, -2], [-3, 1]], [[-1, -3], [-2, 2]]⟩
    ⟨3, 1, 8, [[-2, -2, 0], [-3, 1, 0], [4, 1, 1]], [[-1, -3, 7], [-2, 2, 6], [0, 0, 8]]⟩
    ⟨3, 1, 2, [[-1, 0, 1], [-2, 1, -1], [1, 2, 1]], [[-3, -1, 5], [-2, 2, -2], [1, 3, 1]]⟩
    (by decide) (by decide) rfl rfl rfl rfl

/-- C3: evaluation of the engine at `(T, a, m) = (3, 3, 7)`, an input on
which the search phase of the source evaluates `sqrt` and float division at
line 111 (and float division at line 96 whenever the reduction condition
triggers).  The embedding, which replaces those float computations with
their exact values, returns the exact integer `3`; the claim that every
arithmetic step of the source is exact integer arithmetic with square roots
taken only for final reporting is contradicted by the source text itself at
lines 96 and 111. -/
theorem c3_eval_at_float_input : knuth 64 3 3 7 = .ok 3 := rfl

/-- C4 counterexample: the claimed Minkowski bound `v_t² ≤ m^(2/t)`,
equivalently `(v_t²)^t ≤ m²`, fails at the valid input
`(T, a, m) = (3, 1, 2)`: the engine returns `s = 2` and `2³ > 2²`. -/
theorem c4_counterexample :
    knuth 64 3 1 2 = .ok 2 ∧ ¬ ((2 : ℤ) ^ 3 ≤ (2 : ℤ) ^ 2) :=
  ⟨rfl, by decide⟩

/-- C4 amended: the bound that the engine actually guarantees is the value
of the initial candidate `(−a, 1)`: every successful run returns
`s ≤ 1 + a²`, because `s` starts there and never increases. -/
theorem c4_amended (fuel : ℕ) (T a m v : ℤ)
    (h : knuth fuel T a m = .ok v) : v ≤ 1 + a ^ 2 :=
  knuth_s_le fuel T a m v h

/-- Witness for C4 amended at `(T, a, m) = (2, 3, 7)`. -/
theorem c4_witness : (5 : ℤ) ≤ 1 + 3 ^ 2 :=
  c4_amended 20 2 3 7 5 rfl

/-- C5 counterexample: the spec says the extension loop folds `q` times the
newly appended primal row into the prior row `U[i]`.  The code does the
transposed update: it folds `q` times `U[i]` into the new row `U[t-1]` and
leaves `U[i]` untouched.  At the dimension-2 state for `a = 3, m = 8` the
multiplier for row 0 is `q = -1 ≠ 0`, yet after the extension `U[0]` is
still the padded old row `[-2,-2,0]`, which is NOT `U[0] + q·row` for the
newly appended row under either reading (its initial value `[-1,0,1]` or
its final value `[4,1,1]`). -/
theorem c5_counterexample :
    extendPhase 3 8 ⟨2, 3, 8, [[-2, -2], [-3, 1]], [[-1, -3], [-2, 2]]⟩ =
      .ok ⟨3, 1, 8, [[-2, -2, 0], [-3, 1, 0], [4, 1, 1]],
           [[-1, -3, 7], [-2, 2, 6], [0, 0, 8]]⟩ ∧
    qOf 8 1 [-1, -3] = -1 ∧
    [[-2, -2, 0], [-3, 1, 0], [4, 1, 1]].getD 0 [] = [-2, -2, 0] ∧
    ([-2, -2, 0] : List ℤ) ≠ add [-2, -2, 0] (scalarmult (-1) [-1, 0, 1]) ∧
    ([-2, -2, 0] : List ℤ) ≠ add [-2, -2, 0] (scalarmult (-1) [4, 1, 1]) :=
  ⟨rfl, rfl, rfl, by decide, by decide⟩

/-- C5 amended: full characterisation of the extension step.  For `m ≠ 0`
and a well-formed state: `r` advances to `(a·r) mod m`; every prior primal
row is only padded with a zero; every prior dual row `V[i]` gains the last
coordinate `V[i][0]·r − q_i·m` with `q_i = ⌊V[i][0]·r/m⌋`; the appended
dual row is `[0,…,0,m]`; and the appended primal row is
`[-r,0,…,0,1]` plus the fold of the multiples `q_i · U[i]` (the transposed
update of the spec's wording); finally `s` is lowered with the new last
row's squared norm. -/
theorem c5_amended (a m : ℤ) (st : MatSt) (hm : m ≠ 0) (hwf : Wf st) :
    ∃ (st1 : MatSt) (r1 : ℤ),
      extendPhase a m st = .ok st1 ∧
      pyMod (a * st.r) m = .ok r1 ∧
      st1.t = st.t + 1 ∧ st1.r = r1 ∧
      st1.U.length = st.t + 1 ∧ st1.V.length = st.t + 1 ∧
      (∀ i < st.t, st1.U.getD i [] = st.U.getD i [] ++ [0]) ∧
      st1.U.getD st.t [] =
        (List.range st.t).foldl
          (fun acc i => add acc (scalarmult (qOf m r1 (st.V.getD i []))
            (st.U.getD i [] ++ [0])))
          ([-r1] ++ List.replicate (st.t - 1) 0 ++ [1]) ∧
      (∀ i < st.t, st1.V.getD i [] =
        st.V.getD i [] ++
          [(st.V.getD i []).getD 0 0 * r1 - qOf m r1 (st.V.getD i []) * m]) ∧
      st1.V.getD st.t [] = List.replicate st.t 0 ++ [m] ∧
      st1.s = min st.s (dot (st1.U.getD st.t []) (st1.U.getD st.t [])) :=
  extendPhase_char a m st hm hwf

/-- Witness for C5 amended at the dimension-2 state for `a = 3, m = 8`. -/
theorem c5_witness :
    ∃ (st1 : MatSt) (r1 : ℤ),
      extendPhase 3 8 ⟨2, 3, 8, [[-2, -2], [-3, 1]], [[-1, -3], [-2, 2]]⟩ = .ok st1 ∧
      pyMod (3 * 3) 8 = .ok r1 := by
  obtain ⟨st1, r1, hrun, hmod, -⟩ :=
    c5_amended 3 8 ⟨2, 3, 8, [[-2, -2], [-3, 1]], [[-1, -3], [-2, 2]]⟩
      (by decide) (by unfold Wf RowsLen; decide)
  exact ⟨st1, r1, hrun, hmod⟩

/-- C6: the engine is deterministic - it is a pure function of
`(fuel, T, a, m)`, reading no external state, so two invocations on the
same arguments produce the same outcome (including identical errors on
crashing inputs). -/
theorem c6_deterministic (fuel : ℕ) (T a m : ℤ) (r1 r2 : Except Err ℤ)
    (h1 : knuth fuel T a m = r1) (h2 : knuth fuel T a m = r2) : r1 = r2 :=
  h1.symm.trans h2

/-- Witness for C6: two evaluations at `(2, 3, 7)` agree. -/
theorem c6_witness : (Except.ok (5 : ℤ) : Except Err ℤ) = Except.ok 5 :=
  c6_deterministic 20 2 3 7 (Except.ok 5) (Except.ok 5) rfl rfl

/-- C7 counterexample: the source performs NO parameter validation.  The
invalid dimension `T = 1 < 2` is not rejected: `knuth(1, 3, 7)` runs the
full Euclidean phase and returns a result, signalling no error of any
kind - contradicting the claim that invalid parameters are rejected before
any computation. -/
theorem c7_counterexample :
    knuth 20 1 3 7 = .ok 5 ∧ ∀ er : Err, knuth 20 1 3 7 ≠ .error er := by
  refine ⟨rfl, ?_⟩
  intro er h
  exact Except.noConfusion ((show knuth 20 1 3 7 = Except.ok 5 from rfl).symm.trans h)

/-- C7 amended: what the code actually does with `T < 2`: it behaves
exactly like `T = 2` (Euclidean phase, then return), for every `a`, `m`
and fuel; nothing is rejected and no `InvalidParameters` error exists in
the program.  (Degenerate `a` or `m` instead surface as
`ZeroDivisionError` in mid-phase, cf. the C8 counterexample.) -/
theorem c7_amended (fuel : ℕ) (T a m : ℤ) (h : T < 2) :
    knuth fuel T a m = knuth fuel 2 a m := by
  simp only [knuth]
  cases heuclid : euclidPhase fuel a m with
  | error e => rfl
  | ok e =>
    dsimp only
    rw [if_neg (by omega : ¬ T = 2)]
    have hdims : knuthDims a m T fuel ⟨2, a, e.s, (initUV e).1, (initUV e).2⟩ =
        .ok ⟨2, a, e.s, (initUV e).1, (initUV e).2⟩ := by
      cases fuel <;>
        (simp only [knuthDims]
         dsimp only
         rw [if_neg (show ¬ (((2 : ℕ) : ℤ) < T) by omega)])
    rw [hdims]
    simp

/-- Witness for C7 amended at `(T, a, m) = (1, 3, 7)`. -/
theorem c7_witness : knuth 20 1 3 7 = knuth 20 2 3 7 :=
  c7_amended 20 1 3 7 (by decide)

/-- C8 counterexample: `knuth(2, 2, 4)` does not return `v_2 = sqrt(s)` -
it crashes with a `ZeroDivisionError` inside the Euclidean loop (the
rotation drives `h` to `0` because `gcd(2,4) ≠ 1`), although `(a, m) =
(2, 4)` satisfies the spec's validity invariant `1 ≤ a < m`, `m > 1`. -/
theorem c8_counterexample : knuth 20 2 2 4 = .error .zeroDivision := rfl

/-- C8 amended: whenever the Euclidean phase completes, a `T = 2` call
returns its `s` immediately: no matrices are built and no extension,
reduction or search code runs (structurally, `knuth` returns straight after
the `T == 2` test). -/
theorem c8_amended (fuel : ℕ) (a m : ℤ) (e : ESt)
    (h : euclidPhase fuel a m = .ok e) : knuth fuel 2 a m = .ok e.s := by
  simp [knuth, h]

/-- Witness for C8 amended at `(a, m) = (3, 7)`. -/
theorem c8_witness : knuth 20 2 3 7 = .ok (ESt.mk 1 3 (-2) 1 5).s :=
  c8_amended 20 3 7 ⟨1, 3, -2, 1, 5⟩ rfl

/-- C9: the norm bound `s` is monotonically non-increasing: the Euclidean
loop, the unrotated correction, the extension step, the reduction loop, the
search loop, a whole dimension step, and the whole main loop each produce a
state whose `s` is at most the `s` they started from; moving to the next
dimension carries `s` over (extends the bound) instead of resetting it. -/
theorem c9_s_monotone :
    (∀ (fuel : ℕ) (h h_prime p p_prime s u v : ℤ) (e : ESt) (u1 v1 : ℤ),
      euclidLoop fuel h h_prime p p_prime s u v = .ok (e, u1, v1) → e.s ≤ s) ∧
    (∀ (fuel : ℕ) (a m : ℤ) (e : ESt),
      euclidPhase fuel a m = .ok e → e.s ≤ 1 + a ^ 2) ∧
    (∀ (a m : ℤ) (st st1 : MatSt), extendPhase a m st = .ok st1 → st1.s ≤ st.s) ∧
    (∀ (fuel : ℕ) (st st1 : MatSt), reducePhase fuel st = .ok st1 → st1.s ≤ st.s) ∧
    (∀ (fuel : ℕ) (m : ℤ) (st st1 : MatSt),
      searchPhase fuel m st = .ok st1 → st1.s ≤ st.s) ∧
    (∀ (fuel : ℕ) (a m : ℤ) (st st1 : MatSt),
      dimStep fuel a m st = .ok st1 → st1.s ≤ st.s) ∧
    (∀ (fuel : ℕ) (a m T : ℤ) (st st1 : MatSt),
      knuthDims a m T fuel st = .ok st1 → st1.s ≤ st.s) :=
  ⟨euclidLoop_s_le, euclidPhase_s_le, extendPhase_s_le, reducePhase_s_le,
   searchPhase_s_le, dimStep_s_le,
   fun fuel a m T => knuthDims_s_le a m T fuel⟩

/-- Witness for C9: a Euclidean loop exit keeps `s`. -/
theorem c9_witness : (ESt.mk 5 7 1 0 3).s ≤ 3 :=
  c9_s_monotone.1 1 5 7 1 0 3 10 10 ⟨5, 7, 1, 0, 3⟩ 10 10 rfl

/-- C10: the inner `while k <= t-1` loop of the search step never executes
its body.  The search loop is always entered with `k = t-1`; each outer
iteration increments `k` to `t`, so the inner guard `k ≤ t-1` is false, and
the statements `X[k] = -Z[k]` and `Y -= scalarmult(2*Z[k], U[k])` (the
latter a guaranteed `TypeError`, `Y` being a Python list) are unreachable:
no run of the search loop - hence no `searchPhase` and no `knuth`
execution - can produce that `TypeError`, and on normal exit only the last
coordinate `X[t-1]` has changed, counting up from `0` to `Z[t-1]`. -/
theorem c10_inner_unreachable :
    (∀ (t : ℕ) (U : List (List ℤ)) (Z : List ℤ) (fuel : ℕ) (X Y : List ℤ) (s : ℤ),
      searchLoop t U Z fuel X Y ((t : ℤ) - 1) s ≠ .error .typeError) ∧
    (∀ (fuel : ℕ) (m : ℤ) (st : MatSt), searchPhase fuel m st ≠ .error .typeError) ∧
    (∀ (t : ℕ) (U : List (List ℤ)) (Z : List ℤ) (fuel : ℕ) (X Y : List ℤ) (s : ℤ)
       (X1 Y1 : List ℤ) (s1 : ℤ), 3 ≤ t →
      searchLoop t U Z fuel X Y ((t : ℤ) - 1) s = .ok (X1, Y1, s1) →
      ∀ i, X1.getD i 0 = if i = t - 1 then Z.getD (t - 1) 0 else X.getD i 0) :=
  ⟨searchLoop_no_typeError, searchPhase_no_typeError,
   fun t U Z fuel X Y s X1 Y1 s1 h3 heq =>
     searchLoop_X_char t U Z (by omega) fuel X Y s X1 Y1 s1 heq⟩

/-- Witness for C10: a concrete three-dimensional search run ends with
`X = [0, 0, Z[2]]` and raises nothing. -/
theorem c10_witness :
    ([0, 0, 2] : List ℤ).getD 2 0 =
      if 2 = 3 - 1 then ([0, 0, 2] : List ℤ).getD (3 - 1) 0
      else ([0, 0, 0] : List ℤ).getD 2 0 :=
  c10_inner_unreachable.2.2 3 [[1, 0, 0], [0, 1, 0], [0, 0, 1]] [0, 0, 2] 10
    [0, 0, 0] [0, 0, 0] 50 [0, 0, 2] [0, 0, 0, 0, 0, 1, 0, 0, 1] 1
    (by decide) rfl 2

end SpectralTest
